import Mathlib

/-!
Verification of the incremental similarity-clustering engine of
src/scripts/cluster_today.py: the greedy online clusterer
(`_cluster_with_threshold`), the adaptive threshold controller, the
singleton reconciliation pass, and the output (topic) assembly of `main`.

Real-number scalars model the script's floating-point values; vectors are
lists of reals (1-D numpy arrays).  External collaborators (the LiteLLM
embedding and chat calls, and Python's stdlib `html.unescape`) are modelled
as parameters: the embedding result is the `vectors` input, the chat-naming
wrapper `_title_with_chat` is a `titleOf` parameter and `html.unescape` an
`unescape` parameter, as the spec places them outside the core.
-/

namespace CDI

/-- Dot product of two real vectors, modelling `numpy.dot` on 1-D arrays of
equal length (extra trailing components of a longer argument are ignored). -/
noncomputable def dot : List ℝ → List ℝ → ℝ
  | [], _ => 0
  | _, [] => 0
  | a :: as, b :: bs => a * b + dot as bs

/-- Componentwise vector sum (numpy elementwise `+`). -/
noncomputable def vadd : List ℝ → List ℝ → List ℝ := List.zipWith (fun a b => a + b)

/-- Scalar multiple of a vector (numpy `array * scalar`). -/
noncomputable def vscale (a : ℝ) (v : List ℝ) : List ℝ := v.map (fun c => c * a)

/-- Vector divided componentwise by a scalar (numpy `array / scalar`). -/
noncomputable def vdiv (v : List ℝ) (a : ℝ) : List ℝ := v.map (fun c => c / a)

/-- Squared L2 norm, the dot product of a vector with itself; the script's
`np.linalg.norm v` is its square root. -/
noncomputable def norm2 (v : List ℝ) : ℝ := dot v v

/-- Translation of `_norm` (cluster_today.py lines 35-39): divide by the L2
norm, returning the vector unchanged when the norm is zero. -/
noncomputable def _norm (v : List ℝ) : List ℝ :=
  if Real.sqrt (norm2 v) = 0 then v else vdiv v (Real.sqrt (norm2 v))

/-- Translation of `_cosine` (lines 42-43): a bare dot product (the script
relies on its inputs being pre-normalized). -/
noncomputable def _cosine (a b : List ℝ) : ℝ := dot a b

/-- A cluster record of the script: the dict
with a running "centroid" vector and the ordered "indices" member list. -/
structure Cluster where
  centroid : List ℝ
  indices : List ℕ

/-- The inner best-cluster scan shared by `_cluster_with_threshold`
(lines 129-136) and the singleton merge pass (lines 177-183): walk the
enumerated cluster list keeping the first position whose similarity strictly
exceeds the best so far, starting from the sentinel pair `(-1, -1.0)`. -/
noncomputable def bestScan (v : List ℝ) (acc : ℤ × ℝ) : List (ℕ × Cluster) → ℤ × ℝ
  | [] => acc
  | (i, c) :: rest =>
      bestScan v (if acc.2 < _cosine v c.centroid then ((i : ℤ), _cosine v c.centroid) else acc) rest

/-- One iteration of the greedy pass (enumerate-loop body, lines 128-148):
if the scan found a cluster (`best_ci >= 0`) whose similarity meets the
threshold (`best_sim >= th`), append the index there and set the centroid to
`_norm((cvec * n + v) / (n + 1))` with `n` the pre-update member count;
otherwise append a fresh singleton cluster. -/
noncomputable def greedyStep (th : ℝ) (cl : List Cluster) (iv : ℕ × List ℝ) : List Cluster :=
  let b := bestScan iv.2 (-1, -1) cl.enum
  if 0 ≤ b.1 ∧ th ≤ b.2 then
    let j := b.1.toNat
    let c := cl.getD j ⟨[], []⟩
    let n := c.indices.length
    cl.set j ⟨_norm (vdiv (vadd (vscale (n : ℝ) c.centroid) iv.2) ((n : ℝ) + 1)),
              c.indices ++ [iv.1]⟩
  else cl ++ [⟨iv.2, [iv.1]⟩]

/-- Translation of `_cluster_with_threshold` (lines 125-149): fold the greedy
step over the vectors in input order, starting from no clusters. -/
noncomputable def _cluster_with_threshold (th : ℝ) (vecs : List (List ℝ)) : List Cluster :=
  (vecs.enum).foldl (greedyStep th) []

/-- Translation of `int(max_topics * 1.2)` (line 153): the desired upper
bound on the cluster count. -/
noncomputable def desiredMax (maxTopics : ℕ) : ℕ := ⌊(1.2 : ℝ) * (maxTopics : ℝ)⌋₊

/-- Translation of the adaptive threshold loop (lines 159-166).  The fuel
argument encodes the remaining retries (`tries < 6` becomes fuel `6`); while
the cluster count exceeds `desiredMax` and the threshold sits strictly above
the floor, lower the threshold by `0.02` (clamped at the floor) and
re-cluster from scratch.  Returns the final threshold, the final cluster
list, and the number of retries actually performed. -/
noncomputable def controllerLoop (vecs : List (List ℝ)) (dm : ℕ) (thMin : ℝ) :
    ℕ → ℝ → List Cluster → ℝ × List Cluster × ℕ
  | 0, th, cl => (th, cl, 0)
  | fuel + 1, th, cl =>
      if dm < cl.length ∧ thMin < th then
        let th' := max thMin (th - 0.02)
        let r := controllerLoop vecs dm thMin fuel th' (_cluster_with_threshold th' vecs)
        (r.1, r.2.1, r.2.2 + 1)
      else (th, cl, 0)

/-- The controller entry (lines 154-166): clamp the configured default
threshold into the configured band, cluster once, then run the retry loop
with at most 6 retries. -/
noncomputable def controller (vecs : List (List ℝ)) (thDefault thMin thMax : ℝ)
    (maxTopics : ℕ) : ℝ × List Cluster × ℕ :=
  let t0 := max (min thDefault thMax) thMin
  controllerLoop vecs (desiredMax maxTopics) thMin 6 t0 (_cluster_with_threshold t0 vecs)

/-- One iteration of the singleton merge pass (loop body, lines 174-196):
look up the singleton's record index and vector, scan the current host list,
and either merge into the best host (running-mean centroid update, index
appended) or append the retained singleton to the host list. -/
noncomputable def mergeStep (mth : ℝ) (vecs : List (List ℝ)) (hosts : List Cluster)
    (c : Cluster) : List Cluster :=
  let idx := c.indices.getD 0 0
  let v := vecs.getD idx []
  let b := bestScan v (-1, -1) hosts.enum
  if 0 ≤ b.1 ∧ mth ≤ b.2 then
    let j := b.1.toNat
    let t := hosts.getD j ⟨[], []⟩
    let n := t.indices.length
    hosts.set j ⟨_norm (vdiv (vadd (vscale (n : ℝ) t.centroid) v) ((n : ℝ) + 1)),
                 t.indices ++ [idx]⟩
  else hosts ++ [c]

/-- Translation of the singleton reconciliation pass (lines 168-197):
partition the clusters into singletons and multi-member clusters; when both
sides are nonempty, fold the merge step over the singletons starting from
the multi-member list and replace the cluster list by the result, otherwise
leave the cluster list untouched. -/
noncomputable def mergePass (mth : ℝ) (vecs : List (List ℝ))
    (clusters : List Cluster) : List Cluster :=
  let singles := clusters.filter (fun c => c.indices.length == 1)
  let nonS := clusters.filter (fun c => decide (1 < c.indices.length))
  if singles.isEmpty || nonS.isEmpty then clusters
  else singles.foldl (mergeStep mth vecs) nonS

/-- An input record as read from the normalized JSONL file: the dict fields
the clustering script reads.  Each field is optional, mirroring
`item.get(...)` returning `None` for absent or null fields. -/
structure Item where
  title : Option String
  text : Option String
  source : Option String
  url : Option String

/-- Python truthiness of an optional string: `None` and the empty string are
falsy. -/
def truthy (o : Option String) : Bool := o.getD "" != ""

/-- One entry of a topic's "items" array (lines 284-292): the projected
title/source/url plus a generated snippet. -/
structure TopicItem where
  title : Option String
  source : Option String
  url : Option String
  snippet : String

/-- A finalized topic object of the normal path (lines 279-293). -/
structure Topic where
  topic_id : String
  title : String
  count : ℕ
  representative_text : Option String
  items : List TopicItem

/-- The single fallback topic of the adapter-failure path (lines 110-116):
note its "items" field carries the raw input records, untouched. -/
structure FallbackTopic where
  topic_id : String
  title : String
  count : ℕ
  representative_text : Option String
  items : List Item

/-- The observable outcome of one `main` run: either an early return with no
topics file written (empty input), or the written JSON - a singleton array
holding the fallback topic, or the array of assembled topics. -/
inductive Output where
  | noOutput : Output
  | fallback : FallbackTopic → Output
  | topics : List Topic → Output

/-- Dropping a while-run never lengthens a list (termination measure for the
tag stripper). -/
theorem length_dropWhile_le_len {α : Type} (p : α → Bool) (l : List α) :
    (l.dropWhile p).length ≤ l.length := by
  induction l with
  | nil => simp [List.dropWhile]
  | cons a as ih =>
    simp only [List.dropWhile]
    rcases hp : p a with _ | _ <;> simp_all
    omega

/-- Leftmost-match removal of HTML tags, translating
`re.sub(r"<[^>]+>", " ", s)` at character level: every `<`, followed by at
least one non-`>` character, up to the first `>`, is replaced by one
space. -/
def stripTagsAux : List Char → List Char
  | [] => []
  | c :: cs =>
      if c = '<' then
        match hs : cs.dropWhile (fun d => d ≠ '>') with
        | [] => c :: stripTagsAux cs
        | _ :: tail =>
            if cs.takeWhile (fun d => d ≠ '>') = [] then c :: stripTagsAux cs
            else ' ' :: stripTagsAux tail
      else c :: stripTagsAux cs
termination_by l => l.length
decreasing_by
  · simp
  · simp
  · have h1 := length_dropWhile_le_len (fun d => d ≠ '>') cs
    rw [hs] at h1
    simp only [List.length_cons] at h1 ⊢
    omega
  · simp

/-- Translation of `re.sub(r"\s+", " ", s)`: collapse every run of
whitespace into a single space.  The flag records whether the previous
character belonged to a whitespace run. -/
def collapseWsAux : Bool → List Char → List Char
  | _, [] => []
  | prev, c :: cs =>
      if c.isWhitespace then
        if prev then collapseWsAux true cs else ' ' :: collapseWsAux true cs
      else c :: collapseWsAux false cs

/-- Translation of `_mk_snippet` (lines 257-269): empty body text falls back
to the truncated title; otherwise unescape HTML entities (stdlib call,
passed in as a parameter), strip tags, collapse whitespace, trim and
truncate. -/
def _mk_snippet (unescape : String → String) (item : Item) (maxChars : ℕ) : String :=
  let raw := (item.text.getD "").trim
  if raw = "" then
    let fallback := (item.title.getD "").trim
    if fallback = "" then "" else fallback.take maxChars
  else
    let s := unescape raw
    let s := String.mk (stripTagsAux s.toList)
    let s := (String.mk (collapseWsAux false s.toList)).trim
    s.take maxChars

/-- Zero-padding of `f"topic-{i:03d}"`: decimal digits left-padded with
zeros to width three. -/
def pad3 (n : ℕ) : String :=
  let s := toString n
  String.mk (List.replicate (3 - s.length) '0') ++ s

/-- The per-cluster title choice of `main` (lines 224-254): clusters with at
most one member or at most one usable headline skip the LLM and take the
first headline (or the untitled default); otherwise the chat wrapper is
consulted, with the same headline fallback when it yields an empty string. -/
def titleFor (titleOf : List String → String) (indices : List ℕ)
    (headlines : List String) : String :=
  if indices.length ≤ 1 ∨ headlines.length ≤ 1 then
    headlines.headD "未命名主題"
  else
    let t := titleOf headlines
    if t = "" then headlines.headD "未命名主題" else t

/-- Configuration consumed by the script (`runtime` section defaults in
parentheses): max topics per day (40), similarity threshold (0.82) with its
band (0.60 / 0.90), max items per topic (15), snippet length cap (300). -/
structure Config where
  maxTopics : ℕ
  simThreshold : ℝ
  thMin : ℝ
  thMax : ℝ
  maxItemsPerTopic : ℕ
  snippetMax : ℕ

/-- The normal-path cluster pipeline of `main` (lines 122-205): normalize
the embedding vectors, run the adaptive-threshold controller, run the
singleton reconciliation pass at the relaxed threshold
`max(th_min, threshold - 0.05)`, then stable-sort by descending member
count and truncate to the configured maximum topic count. -/
noncomputable def pipelineClusters (cfg : Config) (vectors : List (List ℝ)) : List Cluster :=
  let vecs := vectors.map _norm
  let r := controller vecs cfg.simThreshold cfg.thMin cfg.thMax cfg.maxTopics
  let mth := max cfg.thMin (r.1 - 0.05)
  let merged := mergePass mth vecs r.2.1
  (merged.mergeSort (fun a b => decide (b.indices.length ≤ a.indices.length))).take cfg.maxTopics

/-- The prepared per-cluster data of `main` (lines 210-219): member indices,
the member items truncated to the per-topic cap, and the truthy-titled
headlines. -/
def prepareCluster (items : List Item) (maxItemsPerTopic : ℕ) (c : Cluster) :
    List ℕ × List Item × List String :=
  let clusterItems := (c.indices.map (fun j => items.getD j ⟨none, none, none, none⟩)).take
    maxItemsPerTopic
  let headlines := (clusterItems.filter (fun it => truthy it.title)).map
    (fun it => it.title.getD "")
  (c.indices, clusterItems, headlines)

/-- Assembly of one topic dict (lines 273-293) from its position and its
prepared cluster data. -/
def mkTopic (titleOf : List String → String) (unescape : String → String)
    (snippetMax : ℕ) (i : ℕ) (p : List ℕ × List Item × List String) : Topic :=
  { topic_id := "topic-" ++ pad3 (i + 1)
    title := titleFor titleOf p.1 p.2.2
    count := p.1.length
    representative_text :=
      if p.2.2 ≠ [] then some (String.intercalate "；" (p.2.2.take 2))
      else match p.2.1 with
        | it :: _ => it.text
        | [] => some ""
    items := p.2.1.map (fun it =>
      { title := it.title
        source := if truthy it.source then it.source else none
        url := it.url
        snippet := _mk_snippet unescape it snippetMax }) }

/-- The observable behaviour of `main` (lines 97-297) after the date/config
plumbing, as a function of the records read from the normalized file and the
vector list returned by the embedding adapter: empty input returns early
with nothing written; a missing or length-mismatched vector list writes the
single fallback topic; otherwise the clustering pipeline runs and the
assembled topics are written. -/
noncomputable def mainModel (titleOf : List String → String)
    (unescape : String → String) (cfg : Config) (items : List Item)
    (vectors : List (List ℝ)) : Output :=
  if items.isEmpty then Output.noOutput
  else if vectors.isEmpty || vectors.length != items.length then
    Output.fallback
      { topic_id := "topic-001"
        title := "今日焦點匯總"
        count := items.length
        representative_text := match items.headD ⟨none, none, none, none⟩ with
          | it => it.title
        items := items }
  else
    let prepared := (pipelineClusters cfg vectors).map
      (prepareCluster items cfg.maxItemsPerTopic)
    Output.topics (prepared.enum.map (fun ip =>
      mkTopic titleOf unescape cfg.snippetMax ip.1 ip.2))

/-! ### The first-argmax reading of the sentinel scan -/

/-- Specification-level selection: the maximum of `f` over a list together
with the position of its first occurrence (ties keep the earlier element,
matching the strict `>` comparison of the scan). -/
noncomputable def firstArgmax (f : Cluster → ℝ) : List Cluster → Option (ℕ × ℝ)
  | [] => none
  | c :: l =>
      match firstArgmax f l with
      | none => some (0, f c)
      | some (j, m) => if m ≤ f c then some (0, f c) else some (j + 1, m)

/-- How a scan started at accumulator `acc` relates to the first-argmax of
the scanned suffix: the argmax replaces the accumulator exactly when it
strictly beats it. -/
noncomputable def scanResult (acc : ℤ × ℝ) (k : ℕ) : Option (ℕ × ℝ) → ℤ × ℝ
  | none => acc
  | some (j, m) => if acc.2 < m then (((k + j : ℕ) : ℤ), m) else acc

theorem bestScan_enumFrom (v : List ℝ) (l : List Cluster) :
    ∀ (k : ℕ) (acc : ℤ × ℝ),
      bestScan v acc (l.enumFrom k) =
        scanResult acc k (firstArgmax (fun c => _cosine v c.centroid) l) := by
  induction l with
  | nil => intro k acc; simp [bestScan, firstArgmax, scanResult, List.enumFrom]
  | cons c rest ih =>
    intro k acc
    rw [List.enumFrom_cons]
    show bestScan v _ (rest.enumFrom (k + 1)) = _
    rw [ih]
    rcases hr : firstArgmax (fun c => _cosine v c.centroid) rest with _ | ⟨j, m⟩
    · simp only [firstArgmax, hr, scanResult]
      by_cases hacc : acc.2 < _cosine v c.centroid <;> simp [hacc]
    · simp only [firstArgmax, hr]
      by_cases hm : m ≤ _cosine v c.centroid
      · rw [if_pos hm]
        simp only [scanResult]
        by_cases hacc : acc.2 < _cosine v c.centroid
        · simp [hacc, not_lt.mpr hm]
        · simp [hacc, not_lt.mpr (le_trans hm (not_lt.mp hacc))]
      · rw [if_neg hm]
        push_neg at hm
        by_cases hacc : acc.2 < _cosine v c.centroid
        · rw [if_pos hacc]
          simp only [scanResult]
          rw [if_pos (by simpa using hm), if_pos (by linarith)]
          have : k + 1 + j = k + (j + 1) := by omega
          rw [this]
        · rw [if_neg hacc]
          simp only [scanResult]
          by_cases h2 : acc.2 < m
          · rw [if_pos h2, if_pos h2]
            have : k + 1 + j = k + (j + 1) := by omega
            rw [this]
          · rw [if_neg h2, if_neg h2]

/-- The scan of the script, on an enumerated cluster list from position 0,
computes the first-argmax guarded by the `-1.0` sentinel. -/
theorem bestScan_enum (v : List ℝ) (cl : List Cluster) :
    bestScan v (-1, -1) cl.enum =
      scanResult (-1, -1) 0 (firstArgmax (fun c => _cosine v c.centroid) cl) := by
  rw [List.enum_eq_enumFrom, bestScan_enumFrom]

theorem firstArgmax_eq_none {f : Cluster → ℝ} {l : List Cluster} :
    firstArgmax f l = none ↔ l = [] := by
  cases l with
  | nil => simp [firstArgmax]
  | cons c rest =>
    simp only [firstArgmax]
    rcases hr : firstArgmax f rest with _ | ⟨j, m⟩
    · simp
    · by_cases hm : m ≤ f c <;> simp [hm]

theorem firstArgmax_lt_length {f : Cluster → ℝ} :
    ∀ {l : List Cluster} {j : ℕ} {m : ℝ}, firstArgmax f l = some (j, m) → j < l.length := by
  intro l
  induction l with
  | nil => intro j m h; simp [firstArgmax] at h
  | cons c rest ih =>
    intro j m h
    simp only [firstArgmax] at h
    rcases hr : firstArgmax f rest with _ | ⟨j', m'⟩ <;> simp only [hr] at h
    · simp at h
      rw [← h.1]
      simp
    · by_cases hm : m' ≤ f c
      · simp only [if_pos hm] at h
        simp at h
        rw [← h.1]
        simp
      · simp only [if_neg hm] at h
        simp at h
        rw [← h.1]
        have := ih hr
        simp only [List.length_cons]
        omega

theorem firstArgmax_getD {f : Cluster → ℝ} (d : Cluster) :
    ∀ {l : List Cluster} {j : ℕ} {m : ℝ}, firstArgmax f l = some (j, m) →
      f (l.getD j d) = m := by
  intro l
  induction l with
  | nil => intro j m h; simp [firstArgmax] at h
  | cons c rest ih =>
    intro j m h
    simp only [firstArgmax] at h
    rcases hr : firstArgmax f rest with _ | ⟨j', m'⟩ <;> simp only [hr] at h
    · simp at h
      simp [← h.1, ← h.2, List.getD]
    · by_cases hm : m' ≤ f c
      · simp only [if_pos hm] at h
        simp at h
        simp [← h.1, ← h.2, List.getD]
      · simp only [if_neg hm] at h
        simp at h
        rw [← h.1, ← h.2]
        simpa [List.getD] using ih hr

theorem firstArgmax_is_max {f : Cluster → ℝ} :
    ∀ {l : List Cluster} {j : ℕ} {m : ℝ}, firstArgmax f l = some (j, m) →
      ∀ c ∈ l, f c ≤ m := by
  intro l
  induction l with
  | nil => intro j m h; simp [firstArgmax] at h
  | cons c rest ih =>
    intro j m h e he
    simp only [firstArgmax] at h
    rcases hr : firstArgmax f rest with _ | ⟨j', m'⟩ <;> simp only [hr] at h
    · simp at h
      rcases List.mem_cons.mp he with rfl | hmem
      · exact le_of_eq h.2
      · rw [firstArgmax_eq_none.mp hr] at hmem
        simp at hmem
    · by_cases hm : m' ≤ f c
      · simp only [if_pos hm] at h
        simp at h
        rcases List.mem_cons.mp he with rfl | hmem
        · exact le_of_eq h.2
        · rw [← h.2]
          exact le_trans (ih hr e hmem) hm
      · simp only [if_neg hm] at h
        simp at h
        rcases List.mem_cons.mp he with rfl | hmem
        · rw [← h.2]; linarith
        · rw [← h.2]; exact ih hr e hmem

theorem firstArgmax_of_ne_nil {f : Cluster → ℝ} {l : List Cluster} (h : l ≠ []) :
    ∃ j m, firstArgmax f l = some (j, m) := by
  rcases hr : firstArgmax f l with _ | ⟨j, m⟩
  · exact absurd (firstArgmax_eq_none.mp hr) h
  · exact ⟨j, m, rfl⟩

/-! ### Vector algebra facts about the norm helper -/

theorem norm2_nonneg (v : List ℝ) : 0 ≤ norm2 v := by
  induction v with
  | nil => simp [norm2, dot]
  | cons a as ih =>
    show 0 ≤ a * a + dot as as
    have : (0 : ℝ) ≤ a * a := mul_self_nonneg a
    have h2 : (0 : ℝ) ≤ dot as as := ih
    linarith

theorem norm2_eq_zero_iff (v : List ℝ) : norm2 v = 0 ↔ ∀ x ∈ v, x = 0 := by
  induction v with
  | nil => simp [norm2, dot]
  | cons a as ih =>
    show a * a + dot as as = 0 ↔ _
    have h1 : (0 : ℝ) ≤ a * a := mul_self_nonneg a
    have h2 : (0 : ℝ) ≤ dot as as := norm2_nonneg as
    constructor
    · intro h x hx
      have ha : a * a = 0 := by linarith
      have has : dot as as = 0 := by linarith
      rcases List.mem_cons.mp hx with rfl | hmem
      · exact mul_self_eq_zero.mp ha
      · exact (ih.mp has) x hmem
    · intro h
      have ha : a = 0 := h a (List.mem_cons_self a as)
      have has : dot as as = 0 := ih.mpr (fun x hx => h x (List.mem_cons_of_mem a hx))
      rw [ha, has]
      ring

theorem norm2_vdiv (v : List ℝ) (a : ℝ) : norm2 (vdiv v a) = norm2 v / (a * a) := by
  induction v with
  | nil => simp [norm2, dot, vdiv]
  | cons c cs ih =>
    show c / a * (c / a) + norm2 (vdiv cs a) = (c * c + norm2 cs) / (a * a)
    rw [ih, div_mul_div_comm, div_add_div_same]

theorem vdiv_of_zero (v : List ℝ) (a : ℝ) (h : ∀ x ∈ v, x = 0) : vdiv v a = v := by
  induction v with
  | nil => simp [vdiv]
  | cons c cs ih =>
    have hc : c = 0 := h c (List.mem_cons_self c cs)
    show (c / a) :: vdiv cs a = c :: cs
    rw [hc, zero_div, ih (fun x hx => h x (List.mem_cons_of_mem c hx))]

/-- The zero-norm guard of `_norm`: a vector of norm zero is passed through
unchanged (no division happens). -/
theorem _norm_of_norm2_eq_zero {v : List ℝ} (h : norm2 v = 0) : _norm v = v := by
  rw [_norm, if_pos (by rw [h, Real.sqrt_zero])]

theorem sqrt_norm2_ne_zero {v : List ℝ} (h : norm2 v ≠ 0) :
    Real.sqrt (norm2 v) ≠ 0 := by
  rw [Ne, Real.sqrt_eq_zero']
  push_neg
  exact lt_of_le_of_ne (norm2_nonneg v) (Ne.symm h)

/-- Normalizing a vector of nonzero norm yields a unit vector. -/
theorem norm2_norm_eq_one {v : List ℝ} (h : norm2 v ≠ 0) : norm2 (_norm v) = 1 := by
  rw [_norm, if_neg (sqrt_norm2_ne_zero h), norm2_vdiv,
    Real.mul_self_sqrt (norm2_nonneg v), div_self h]

/-- Dividing by a positive scalar before normalizing changes nothing: this
is why the claim's `normalize(old_centroid * n + v)` and the code's
`_norm((cvec * n + v) / (n + 1))` agree. -/
theorem _norm_vdiv {v : List ℝ} {a : ℝ} (ha : 0 < a) : _norm (vdiv v a) = _norm v := by
  by_cases h : norm2 v = 0
  · rw [vdiv_of_zero v a ((norm2_eq_zero_iff v).mp h)]
  · have hs := sqrt_norm2_ne_zero h
    have hv : norm2 (vdiv v a) = norm2 v / (a * a) := norm2_vdiv v a
    have hsq : Real.sqrt (norm2 (vdiv v a)) = Real.sqrt (norm2 v) / a := by
      rw [hv, Real.sqrt_div (norm2_nonneg v), Real.sqrt_mul_self (le_of_lt ha)]
    have hne : Real.sqrt (norm2 (vdiv v a)) ≠ 0 := by
      rw [hsq]
      exact div_ne_zero hs (ne_of_gt ha)
    rw [_norm, _norm, if_neg hne, if_neg hs, hsq]
    show List.map _ (List.map _ v) = _
    rw [List.map_map]
    apply List.map_congr_left
    intro c _
    show c / a / (Real.sqrt (norm2 v) / a) = c / Real.sqrt (norm2 v)
    rw [div_div_eq_mul_div, div_mul_eq_mul_div, mul_comm, mul_comm a c,
      mul_div_assoc, div_self (ne_of_gt ha), mul_one]

/-! ### Claim C2: the greedy step against its specified selection rule -/

/-- Modelled from the claim (C2, spec 4.1 wording): select the cluster of
maximum cosine similarity, ties keeping the first-encountered cluster;
if that maximum is at least the threshold, append the index and set the
centroid to the normalized running mean `normalize(old_centroid * n + v)`,
otherwise start a new singleton cluster. -/
noncomputable def claimGreedyStep (th : ℝ) (cl : List Cluster) (iv : ℕ × List ℝ) :
    List Cluster :=
  match firstArgmax (fun c => _cosine iv.2 c.centroid) cl with
  | some (j, m) =>
      if th ≤ m then
        let c := cl.getD j ⟨[], []⟩
        cl.set j ⟨_norm (vadd (vscale (c.indices.length : ℝ) c.centroid) iv.2),
                  c.indices ++ [iv.1]⟩
      else cl ++ [⟨iv.2, [iv.1]⟩]
  | none => cl ++ [⟨iv.2, [iv.1]⟩]

/-- Modelled from the claim as amended: identical to `claimGreedyStep`
except that the selected maximum must additionally strictly exceed the
`-1.0` sentinel of the scan for a merge to happen. -/
noncomputable def amendedGreedyStep (th : ℝ) (cl : List Cluster) (iv : ℕ × List ℝ) :
    List Cluster :=
  match firstArgmax (fun c => _cosine iv.2 c.centroid) cl with
  | some (j, m) =>
      if -1 < m ∧ th ≤ m then
        let c := cl.getD j ⟨[], []⟩
        cl.set j ⟨_norm (vadd (vscale (c.indices.length : ℝ) c.centroid) iv.2),
                  c.indices ++ [iv.1]⟩
      else cl ++ [⟨iv.2, [iv.1]⟩]
  | none => cl ++ [⟨iv.2, [iv.1]⟩]

/-- Modelled from the claim: the whole greedy pass as the claim describes
it (no sentinel guard), for comparison with `_cluster_with_threshold`. -/
noncomputable def claimGreedy (th : ℝ) (vecs : List (List ℝ)) : List Cluster :=
  (vecs.enum).foldl (claimGreedyStep th) []

/-- C2 (counterexample): at vectors `[1,0]`, `[-1,0]` and threshold `-1.0`,
the claim's description merges the second vector (the maximum similarity is
`-1 ≥ τ`), producing one cluster, but `_cluster_with_threshold` keeps two
clusters, because its scan only accepts a cluster whose similarity strictly
exceeds the `-1.0` sentinel. -/
theorem C2_counterexample :
    (_cluster_with_threshold (-1) [[1, 0], [-1, 0]]).length = 2 ∧
      (claimGreedy (-1) [[1, 0], [-1, 0]]).length = 1 := by
  have henum : ([[(1 : ℝ), 0], [-1, 0]].enum) =
      [((0 : ℕ), [(1 : ℝ), 0]), ((1 : ℕ), [(-1 : ℝ), 0])] := rfl
  have h1 : greedyStep (-1) [] ((0 : ℕ), ([1, 0] : List ℝ)) = [⟨[1, 0], [0]⟩] := by
    norm_num [greedyStep, bestScan, List.enum]
  have h3 : claimGreedyStep (-1) [] ((0 : ℕ), ([1, 0] : List ℝ)) = [⟨[1, 0], [0]⟩] := by
    norm_num [claimGreedyStep, firstArgmax]
  constructor
  · simp only [_cluster_with_threshold, henum, List.foldl_cons, List.foldl_nil, h1]
    norm_num [greedyStep, bestScan, List.enum, List.enumFrom, _cosine, dot]
  · simp only [claimGreedy, henum, List.foldl_cons, List.foldl_nil, h3]
    norm_num [claimGreedyStep, firstArgmax, _cosine, dot]

/-- C2 (amended): each step of `_cluster_with_threshold` selects the
existing cluster of maximum cosine similarity with ties keeping the
first-encountered cluster, merges exactly when that maximum both strictly
exceeds the `-1.0` scan sentinel and meets the threshold - updating the
centroid to `normalize(old_centroid * n + v)`, to which the code's
`_norm((cvec * n + v) / (n + 1))` is equal - and otherwise starts a new
singleton cluster. -/
theorem C2_greedy_step_is_guarded_first_argmax (th : ℝ) (cl : List Cluster)
    (iv : ℕ × List ℝ) : greedyStep th cl iv = amendedGreedyStep th cl iv := by
  rcases hfa : firstArgmax (fun c => _cosine iv.2 c.centroid) cl with _ | ⟨j, m⟩ <;>
    simp only [greedyStep, amendedGreedyStep, bestScan_enum, hfa, scanResult]
  · simp
  · by_cases hm1 : (-1 : ℝ) < m
    · rw [if_pos hm1]
      by_cases hth : th ≤ m
      · rw [if_pos ⟨Int.natCast_nonneg _, hth⟩, if_pos ⟨hm1, hth⟩]
        simp only [Int.toNat_natCast, Nat.zero_add]
        rw [_norm_vdiv (by positivity)]
      · rw [if_neg (show ¬((0 : ℤ) ≤ ((((0 + j : ℕ) : ℤ), m) : ℤ × ℝ).1 ∧ th ≤ ((((0 + j : ℕ) : ℤ), m) : ℤ × ℝ).2) from fun hc => hth hc.2),
          if_neg (show ¬((-1 : ℝ) < m ∧ th ≤ m) from fun hc => hth hc.2)]
    · rw [if_neg hm1]
      rw [if_neg (fun hc => absurd hc.1 (by norm_num)),
        if_neg (fun hc => hm1 hc.1)]

/-! ### Claim C1: the partition invariant -/

/-- All member record indices of a cluster list, in cluster order. -/
def allIndices (cl : List Cluster) : List ℕ := (cl.map (fun c => c.indices)).flatten

theorem allIndices_append (cl₁ cl₂ : List Cluster) :
    allIndices (cl₁ ++ cl₂) = allIndices cl₁ ++ allIndices cl₂ := by
  simp [allIndices]

/-- Appending one index to the cluster at a valid position permutes the
overall index list by appending that index. -/
theorem allIndices_set_perm :
    ∀ (cl : List Cluster) (j : ℕ), j < cl.length → ∀ (i : ℕ) (cen : List ℝ),
      (allIndices (cl.set j ⟨cen, (cl.getD j ⟨[], []⟩).indices ++ [i]⟩)).Perm
        (allIndices cl ++ [i]) := by
  intro cl
  induction cl with
  | nil => intro j hj; simp at hj
  | cons c rest ih =>
    intro j hj i cen
    cases j with
    | zero =>
      simp only [List.set_cons_zero, List.getD_cons_zero, allIndices, List.map_cons,
        List.flatten_cons]
      rw [List.append_assoc, List.append_assoc]
      exact List.Perm.append_left _ List.perm_append_comm
    | succ j' =>
      simp only [List.set_cons_succ, List.getD_cons_succ, allIndices, List.map_cons,
        List.flatten_cons]
      have hj' : j' < rest.length := by simpa using hj
      rw [List.append_assoc]
      exact List.Perm.append_left _ (ih j' hj' i cen)

/-- When the merge branch of `greedyStep` is taken, the scan result is the
first-argmax of a nonempty cluster list and its position is in range. -/
theorem greedyStep_perm (th : ℝ) (cl : List Cluster) (i : ℕ) (v : List ℝ) :
    (allIndices (greedyStep th cl (i, v))).Perm (allIndices cl ++ [i]) := by
  simp only [greedyStep, bestScan_enum]
  rcases hfa : firstArgmax (fun c => _cosine v c.centroid) cl with _ | ⟨j, m⟩ <;>
    simp only [hfa, scanResult]
  · rw [if_neg (fun hc => absurd hc.1 (by norm_num))]
    rw [allIndices_append]
    simp [allIndices]
  · by_cases hm1 : (-1 : ℝ) < m
    · rw [if_pos hm1]
      by_cases hth : th ≤ m
      · rw [if_pos ⟨Int.natCast_nonneg _, hth⟩]
        simp only [Int.toNat_natCast, Nat.zero_add]
        exact allIndices_set_perm cl j (firstArgmax_lt_length hfa) i _
      · rw [if_neg (fun hc => hth hc.2)]
        rw [allIndices_append]
        simp [allIndices]
    · rw [if_neg hm1, if_neg (fun hc => absurd hc.1 (by norm_num))]
      rw [allIndices_append]
      simp [allIndices]

/-- Folding the greedy step appends exactly the processed indices, as a
permutation. -/
theorem greedy_foldl_perm (th : ℝ) :
    ∀ (pairs : List (ℕ × List ℝ)) (cl0 : List Cluster),
      (allIndices (pairs.foldl (greedyStep th) cl0)).Perm
        (allIndices cl0 ++ pairs.map (fun p => p.1)) := by
  intro pairs
  induction pairs with
  | nil => intro cl0; simp
  | cons p rest ih =>
    intro cl0
    rcases p with ⟨i, v⟩
    simp only [List.foldl_cons, List.map_cons]
    refine (ih _).trans ?_
    refine ((greedyStep_perm th cl0 i v).append_right (rest.map (fun p => p.1))).trans ?_
    rw [List.append_assoc]
    exact List.Perm.refl _

/-- The index lists of `_cluster_with_threshold` form a permutation of the
full input index range. -/
theorem cluster_with_threshold_perm (th : ℝ) (vecs : List (List ℝ)) :
    (allIndices (_cluster_with_threshold th vecs)).Perm (List.range vecs.length) := by
  have h := greedy_foldl_perm th vecs.enum []
  simpa [allIndices, List.enum_map_fst] using h

/-- A merge-pass step on a singleton appends exactly that singleton's
member index, as a permutation. -/
theorem mergeStep_perm (mth : ℝ) (vecs : List (List ℝ)) (hosts : List Cluster)
    (c : Cluster) (hc : c.indices.length = 1) :
    (allIndices (mergeStep mth vecs hosts c)).Perm (allIndices hosts ++ c.indices) := by
  have hind : c.indices = [c.indices.getD 0 0] := by
    rcases hcc : c.indices with _ | ⟨x, rest⟩
    · rw [hcc] at hc
      simp at hc
    · rw [hcc] at hc
      simp only [List.length_cons] at hc
      have hr : rest = [] := by
        have : rest.length = 0 := by omega
        exact List.length_eq_zero.mp this
      subst hr
      simp
  rw [hind]
  simp only [mergeStep, bestScan_enum]
  rcases hfa : firstArgmax (fun d => _cosine (vecs.getD (c.indices.getD 0 0) []) d.centroid)
      hosts with _ | ⟨j, m⟩ <;> simp only [hfa, scanResult]
  · rw [if_neg (fun hcond => absurd hcond.1 (by norm_num))]
    rw [allIndices_append]
    simp only [allIndices, List.map_cons, List.map_nil, List.flatten_cons, List.flatten_nil,
      List.append_nil]
    conv_lhs => rw [hind]
  · by_cases hm1 : (-1 : ℝ) < m
    · rw [if_pos hm1]
      by_cases hth : mth ≤ m
      · rw [if_pos ⟨Int.natCast_nonneg _, hth⟩]
        simp only [Int.toNat_natCast, Nat.zero_add]
        exact allIndices_set_perm hosts j (firstArgmax_lt_length hfa)
          (c.indices.getD 0 0) _
      · rw [if_neg (fun hcond => hth hcond.2)]
        rw [allIndices_append]
        simp only [allIndices, List.map_cons, List.map_nil, List.flatten_cons, List.flatten_nil,
          List.append_nil]
        conv_lhs => rw [hind]
    · rw [if_neg hm1, if_neg (fun hcond => absurd hcond.1 (by norm_num))]
      rw [allIndices_append]
      simp only [allIndices, List.map_cons, List.map_nil, List.flatten_cons, List.flatten_nil,
        List.append_nil]
      conv_lhs => rw [hind]

theorem merge_foldl_perm (mth : ℝ) (vecs : List (List ℝ)) :
    ∀ (singles : List Cluster) (hosts : List Cluster),
      (∀ c ∈ singles, c.indices.length = 1) →
      (allIndices (singles.foldl (mergeStep mth vecs) hosts)).Perm
        (allIndices hosts ++ allIndices singles) := by
  intro singles
  induction singles with
  | nil => intro hosts _; simp [allIndices]
  | cons c rest ih =>
    intro hosts hs
    simp only [List.foldl_cons]
    refine (ih _ (fun d hd => hs d (List.mem_cons_of_mem c hd))).trans ?_
    refine ((mergeStep_perm mth vecs hosts c
      (hs c (List.mem_cons_self c rest))).append_right (allIndices rest)).trans ?_
    rw [List.append_assoc]
    have hcr : allIndices (c :: rest) = c.indices ++ allIndices rest := by
      simp [allIndices]
    rw [hcr]

/-- The singleton reconciliation pass preserves the member-index multiset
whenever no cluster has an empty member list. -/
theorem mergePass_perm (mth : ℝ) (vecs : List (List ℝ)) (clusters : List Cluster)
    (h : ∀ c ∈ clusters, c.indices ≠ []) :
    (allIndices (mergePass mth vecs clusters)).Perm (allIndices clusters) := by
  rw [mergePass]
  by_cases hguard : ((clusters.filter (fun c => c.indices.length == 1)).isEmpty ||
      (clusters.filter (fun c => decide (1 < c.indices.length))).isEmpty) = true
  · rw [if_pos hguard]
  · rw [if_neg hguard]
    have hsingles : ∀ c ∈ clusters.filter (fun c => c.indices.length == 1),
        c.indices.length = 1 := by
      intro c hcmem
      have := List.of_mem_filter hcmem
      simpa using this
    have hfold := merge_foldl_perm mth vecs
      (clusters.filter (fun c => c.indices.length == 1))
      (clusters.filter (fun c => decide (1 < c.indices.length))) hsingles
    have hfilters : clusters.filter (fun c => decide (1 < c.indices.length)) =
        clusters.filter (fun c => !(c.indices.length == 1)) := by
      apply List.filter_congr
      intro c hcmem
      have hne := h c hcmem
      have hlen : 1 ≤ c.indices.length := by
        rcases hcc : c.indices with _ | _
        · exact absurd hcc hne
        · simp [hcc]
      rcases Nat.lt_or_ge 1 c.indices.length with hgt | hle
      · simp [hgt, Nat.ne_of_gt hgt]
      · have : c.indices.length = 1 := le_antisymm hle hlen
        simp [this]
    have hpart : ((clusters.filter (fun c => c.indices.length == 1)) ++
        (clusters.filter (fun c => decide (1 < c.indices.length)))).Perm clusters := by
      rw [hfilters]
      exact List.filter_append_perm _ clusters
    refine hfold.trans ?_
    rw [← allIndices_append]
    have h2 : ((clusters.filter (fun c => decide (1 < c.indices.length))) ++
        (clusters.filter (fun c => c.indices.length == 1))).Perm clusters :=
      (List.perm_append_comm).trans hpart
    exact (h2.map (fun c => c.indices)).flatten

/-- Clusters produced by the greedy pass never have an empty member list. -/
theorem greedy_indices_ne_nil (th : ℝ) :
    ∀ (pairs : List (ℕ × List ℝ)) (cl0 : List Cluster),
      (∀ c ∈ cl0, c.indices ≠ []) →
      ∀ c ∈ pairs.foldl (greedyStep th) cl0, c.indices ≠ [] := by
  intro pairs
  induction pairs with
  | nil => intro cl0 h; simpa using h
  | cons p rest ih =>
    intro cl0 h
    simp only [List.foldl_cons]
    apply ih
    intro c hc
    simp only [greedyStep] at hc
    by_cases hcond : (0 : ℤ) ≤ (bestScan p.2 (-1, -1) cl0.enum).1 ∧
        th ≤ (bestScan p.2 (-1, -1) cl0.enum).2
    · rw [if_pos hcond] at hc
      rcases List.mem_or_eq_of_mem_set hc with hmem | rfl
      · exact h c hmem
      · simp
    · rw [if_neg hcond] at hc
      rcases List.mem_append.mp hc with hmem | hmem
      · exact h c hmem
      · simp at hmem
        rw [hmem]
        simp

/-- C1: for every input batch of vectors, the greedy clusterer followed by
the singleton reconciliation pass yields clusters whose member-index lists
are pairwise disjoint and whose union is exactly the full input index set
0..n-1. -/
theorem C1_partition_invariant (vecs : List (List ℝ)) (th mth : ℝ) :
    List.Pairwise List.Disjoint
        ((mergePass mth vecs (_cluster_with_threshold th vecs)).map (fun c => c.indices)) ∧
      ∀ i, (i ∈ allIndices (mergePass mth vecs (_cluster_with_threshold th vecs)) ↔
        i < vecs.length) := by
  have hne : ∀ c ∈ _cluster_with_threshold th vecs, c.indices ≠ [] := by
    apply greedy_indices_ne_nil th vecs.enum []
    intro c hc
    simp at hc
  have hperm : (allIndices (mergePass mth vecs (_cluster_with_threshold th vecs))).Perm
      (List.range vecs.length) :=
    (mergePass_perm mth vecs _ hne).trans (cluster_with_threshold_perm th vecs)
  have hnodup : (allIndices (mergePass mth vecs (_cluster_with_threshold th vecs))).Nodup :=
    hperm.symm.nodup (List.nodup_range vecs.length)
  constructor
  · exact (List.nodup_flatten.mp hnodup).2
  · intro i
    rw [hperm.mem_iff, List.mem_range]

/-! ### Claim C4: the adaptive threshold controller -/

/-- Clamping at a floor commutes with subtracting a nonnegative step. -/
theorem max_sub_clamp (a x s : ℝ) (hs : 0 ≤ s) : max a (max a x - s) = max a (x - s) := by
  rcases le_total x a with h | h
  · rw [max_eq_left h, max_eq_left (by linarith), max_eq_left (by linarith)]
  · rw [max_eq_right h]

/-- Full characterization of the retry loop: started at a threshold at or
above the floor with the matching cluster run, it performs some number of
retries bounded by the fuel; the final threshold is the clamped start minus
0.02 per retry, the final clusters are a from-scratch run at the final
threshold, the loop only stops with the count in band, the threshold at the
floor, or the fuel exhausted, and every retry was justified by an
out-of-band count at a threshold still above the floor. -/
theorem controllerLoop_spec (vecs : List (List ℝ)) (dm : ℕ) (thMin : ℝ) :
    ∀ (fuel : ℕ) (th : ℝ), thMin ≤ th →
      (controllerLoop vecs dm thMin fuel th (_cluster_with_threshold th vecs)).2.2 ≤ fuel ∧
      (controllerLoop vecs dm thMin fuel th (_cluster_with_threshold th vecs)).1 =
        max thMin (th - 0.02 *
          ((controllerLoop vecs dm thMin fuel th (_cluster_with_threshold th vecs)).2.2 : ℝ)) ∧
      (controllerLoop vecs dm thMin fuel th (_cluster_with_threshold th vecs)).2.1 =
        _cluster_with_threshold
          (controllerLoop vecs dm thMin fuel th (_cluster_with_threshold th vecs)).1 vecs ∧
      ((controllerLoop vecs dm thMin fuel th (_cluster_with_threshold th vecs)).2.1.length ≤ dm ∨
        (controllerLoop vecs dm thMin fuel th (_cluster_with_threshold th vecs)).1 = thMin ∨
        (controllerLoop vecs dm thMin fuel th (_cluster_with_threshold th vecs)).2.2 = fuel) ∧
      (∀ j < (controllerLoop vecs dm thMin fuel th (_cluster_with_threshold th vecs)).2.2,
        dm < (_cluster_with_threshold (max thMin (th - 0.02 * (j : ℝ))) vecs).length ∧
          thMin < max thMin (th - 0.02 * (j : ℝ))) := by
  intro fuel
  induction fuel with
  | zero =>
    intro th hth
    refine ⟨?_, ?_, ?_, ?_, ?_⟩
    · simp [controllerLoop]
    · simp [controllerLoop, max_eq_right hth]
    · simp [controllerLoop]
    · simp [controllerLoop]
    · intro j hj
      simp [controllerLoop] at hj
  | succ fuel ih =>
    intro th hth
    by_cases hcond : dm < (_cluster_with_threshold th vecs).length ∧ thMin < th
    · have hth' : thMin ≤ max thMin (th - 0.02) := le_max_left _ _
      have := ih (max thMin (th - 0.02)) hth'
      rcases this with ⟨hk, hthf, hcl, hexit, hjust⟩
      have hred : controllerLoop vecs dm thMin (fuel + 1) th (_cluster_with_threshold th vecs) =
          ((controllerLoop vecs dm thMin fuel (max thMin (th - 0.02))
            (_cluster_with_threshold (max thMin (th - 0.02)) vecs)).1,
           (controllerLoop vecs dm thMin fuel (max thMin (th - 0.02))
            (_cluster_with_threshold (max thMin (th - 0.02)) vecs)).2.1,
           (controllerLoop vecs dm thMin fuel (max thMin (th - 0.02))
            (_cluster_with_threshold (max thMin (th - 0.02)) vecs)).2.2 + 1) := by
        rw [controllerLoop, if_pos hcond]
      rw [hred]
      dsimp only
      refine ⟨by simpa using Nat.add_le_add_right hk 1, ?_, hcl, ?_, ?_⟩
      · rw [hthf]
        rw [max_sub_clamp thMin (th - 0.02) (0.02 * ((controllerLoop vecs dm thMin fuel
          (max thMin (th - 0.02)) (_cluster_with_threshold (max thMin (th - 0.02)) vecs)).2.2 : ℝ))
          (by positivity)]
        congr 1
        push_cast
        ring
      · rcases hexit with h | h | h
        · exact Or.inl h
        · exact Or.inr (Or.inl h)
        · exact Or.inr (Or.inr (by rw [h]))
      · intro j hj
        cases j with
        | zero =>
          constructor
          · simpa [max_eq_right hth] using hcond.1
          · simpa [max_eq_right hth] using hcond.2
        | succ j' =>
          have hj' : j' < (controllerLoop vecs dm thMin fuel (max thMin (th - 0.02))
              (_cluster_with_threshold (max thMin (th - 0.02)) vecs)).2.2 := by
            simpa using Nat.lt_of_succ_lt_succ hj
          have := hjust j' hj'
          have hclamp : max thMin (max thMin (th - 0.02) - 0.02 * (j' : ℝ)) =
              max thMin (th - 0.02 * ((j' + 1 : ℕ) : ℝ)) := by
            rw [max_sub_clamp thMin (th - 0.02) (0.02 * (j' : ℝ)) (by positivity)]
            push_cast
            ring_nf
          rw [hclamp] at this
          exact this
    · have hred : controllerLoop vecs dm thMin (fuel + 1) th (_cluster_with_threshold th vecs) =
          (th, _cluster_with_threshold th vecs, 0) := by
        rw [controllerLoop, if_neg hcond]
      rw [hred]
      push_neg at hcond
      refine ⟨Nat.zero_le _, by simp [max_eq_right hth], rfl, ?_, ?_⟩
      · rcases Nat.lt_or_ge dm (_cluster_with_threshold th vecs).length with hgt | hle
        · exact Or.inr (Or.inl (le_antisymm (hcond hgt) hth))
        · exact Or.inl hle
      · intro j hj
        simp at hj

/-- C4: the adaptive threshold controller starts from the configured
default clamped into the band, re-clusters from scratch with the threshold
lowered by 0.02 (floor-clamped) exactly while the cluster count exceeds
`int(1.2 * max_topics)` (equivalently, exceeds `1.2 x target`), the
threshold is above the floor and fewer than 6 retries were made, and always
returns a threshold/cluster pair: the count in band, the floor reached, or
the retry bound exhausted. -/
theorem C4_threshold_controller (vecs : List (List ℝ)) (thDefault thMin thMax : ℝ)
    (maxTopics : ℕ) :
    (controller vecs thDefault thMin thMax maxTopics).2.2 ≤ 6 ∧
    (controller vecs thDefault thMin thMax maxTopics).1 =
      max thMin (max (min thDefault thMax) thMin - 0.02 *
        ((controller vecs thDefault thMin thMax maxTopics).2.2 : ℝ)) ∧
    (controller vecs thDefault thMin thMax maxTopics).2.1 =
      _cluster_with_threshold (controller vecs thDefault thMin thMax maxTopics).1 vecs ∧
    ((controller vecs thDefault thMin thMax maxTopics).2.1.length ≤ desiredMax maxTopics ∨
      (controller vecs thDefault thMin thMax maxTopics).1 = thMin ∨
      (controller vecs thDefault thMin thMax maxTopics).2.2 = 6) ∧
    (∀ j < (controller vecs thDefault thMin thMax maxTopics).2.2,
      desiredMax maxTopics <
        (_cluster_with_threshold
          (max thMin (max (min thDefault thMax) thMin - 0.02 * (j : ℝ))) vecs).length ∧
      thMin < max thMin (max (min thDefault thMax) thMin - 0.02 * (j : ℝ))) ∧
    (∀ c : ℕ, desiredMax maxTopics < c ↔ (1.2 : ℝ) * (maxTopics : ℝ) < (c : ℝ)) := by
  have hspec := controllerLoop_spec vecs (desiredMax maxTopics) thMin 6
    (max (min thDefault thMax) thMin) (le_max_right _ _)
  rcases hspec with ⟨hk, hthf, hcl, hexit, hjust⟩
  refine ⟨hk, hthf, hcl, hexit, hjust, ?_⟩
  intro c
  rw [desiredMax, Nat.floor_lt (by positivity)]

/-- Witness: the controller characterization instantiated on the empty
batch with the default configuration. -/
theorem C4_threshold_controller_witness :
    (controller [] 0.82 0.6 0.9 40).2.2 ≤ 6 :=
  (C4_threshold_controller [] 0.82 0.6 0.9 40).1

/-! ### Claims C5, C7 and C10: output assembly, fallback and early return -/

/-- C10: an empty record batch makes `main` return before the embedding
call - no topics file is written at all, neither an empty topic list nor a
fallback topic. -/
theorem C10_empty_input_writes_nothing (titleOf : List String → String)
    (unescape : String → String) (cfg : Config) (vectors : List (List ℝ)) :
    mainModel titleOf unescape cfg [] vectors = Output.noOutput := rfl

/-- C5: on a non-empty record batch, an empty or length-mismatched vector
list bypasses the whole clustering pipeline and the run terminates
successfully with exactly one fallback topic holding every input record,
its member count equal to the input record count. -/
theorem C5_adapter_failure_fallback (titleOf : List String → String)
    (unescape : String → String) (cfg : Config) (items : List Item)
    (vectors : List (List ℝ)) (hitems : items ≠ [])
    (hvec : vectors.isEmpty = true ∨ vectors.length ≠ items.length) :
    ∃ ft, mainModel titleOf unescape cfg items vectors = Output.fallback ft ∧
      ft.count = items.length ∧ ft.items = items := by
  have h1 : items.isEmpty = false := by
    rcases items with _ | _
    · exact absurd rfl hitems
    · rfl
  have h2 : (vectors.isEmpty || vectors.length != items.length) = true := by
    rcases hvec with h | h
    · rw [h, Bool.true_or]
    · rw [Bool.or_eq_true]
      exact Or.inr (by simpa using h)
  rw [mainModel, if_neg (by rw [h1]; exact Bool.false_ne_true), if_pos h2]
  exact ⟨_, rfl, rfl, rfl⟩

/-- Witness for C5: a one-record batch with an empty vector list yields the
single fallback topic of count one. -/
theorem C5_adapter_failure_fallback_witness :
    ∃ ft, mainModel (fun _ => "") (fun s => s) ⟨40, 0.82, 0.6, 0.9, 15, 300⟩
        [⟨some "t", none, none, none⟩] [] = Output.fallback ft ∧
      ft.count = ([⟨some "t", none, none, none⟩] : List Item).length ∧
      ft.items = [⟨some "t", none, none, none⟩] :=
  C5_adapter_failure_fallback (fun _ => "") (fun s => s) ⟨40, 0.82, 0.6, 0.9, 15, 300⟩
    [⟨some "t", none, none, none⟩] [] (by simp) (Or.inl rfl)

/-- C7 (counterexample): with 16 input records and a failed vector list,
the emitted fallback topic's items list carries all 16 raw records - it is
not truncated to the configured `max_items_per_topic` of 15, so the
"size-bounded prefix, including on the fallback path" claim fails. -/
theorem C7_counterexample :
    mainModel (fun _ => "") (fun s => s) ⟨40, 0.82, 0.6, 0.9, 15, 300⟩
        (List.replicate 16 ⟨some "t", some "x", none, none⟩) [] =
      Output.fallback
        { topic_id := "topic-001", title := "今日焦點匯總", count := 16,
          representative_text := some "t",
          items := List.replicate 16 ⟨some "t", some "x", none, none⟩ } ∧
      (15 : ℕ) < (List.replicate 16 (⟨some "t", some "x", none, none⟩ : Item)).length := by
  constructor
  · rfl
  · simp

/-- The relation C7 asserts between an emitted topic and its underlying
cluster: the member count is the full index count and the items list is the
projected first-`max_items_per_topic` prefix of the members. -/
def topicMatches (items : List Item) (cfg : Config) (unescape : String → String)
    (t : Topic) (c : Cluster) : Prop :=
  t.count = c.indices.length ∧
  t.items = ((c.indices.map (fun j => items.getD j ⟨none, none, none, none⟩)).take
      cfg.maxItemsPerTopic).map
    (fun it => { title := it.title
                 source := if truthy it.source then it.source else none
                 url := it.url
                 snippet := _mk_snippet unescape it cfg.snippetMax })

theorem forall₂_enumFrom_map {α β : Type} (R : β → α → Prop) (g : ℕ × α → β)
    (h : ∀ i a, R (g (i, a)) a) :
    ∀ (l : List α) (k : ℕ), List.Forall₂ R ((l.enumFrom k).map g) l := by
  intro l
  induction l with
  | nil => intro k; simp [List.enumFrom]
  | cons a rest ih =>
    intro k
    rw [List.enumFrom_cons, List.map_cons]
    exact List.Forall₂.cons (h k a) (ih (k + 1))

/-- C7 (amended): on the normal path every emitted topic's member count
equals its cluster's index count and its items list is the projected
first-`max_items_per_topic` prefix of the cluster's members in discovery
order; on the adapter-failure fallback path the single topic instead
carries the full raw record list (count still equals its length), with no
truncation. -/
theorem C7_topic_shape (titleOf : List String → String) (unescape : String → String)
    (cfg : Config) (items : List Item) (vectors : List (List ℝ)) :
    (match mainModel titleOf unescape cfg items vectors with
     | Output.noOutput => True
     | Output.fallback ft => ft.count = ft.items.length ∧ ft.items = items
     | Output.topics ts =>
        List.Forall₂ (topicMatches items cfg unescape) ts (pipelineClusters cfg vectors)) := by
  rw [mainModel]
  by_cases h1 : items.isEmpty
  · rw [if_pos h1]
    exact trivial
  · rw [if_neg h1]
    by_cases h2 : (vectors.isEmpty || vectors.length != items.length) = true
    · rw [if_pos h2]
      exact ⟨rfl, rfl⟩
    · rw [if_neg h2]
      show List.Forall₂ (topicMatches items cfg unescape)
        ((((pipelineClusters cfg vectors).map
          (prepareCluster items cfg.maxItemsPerTopic)).enum).map
          (fun ip => mkTopic titleOf unescape cfg.snippetMax ip.1 ip.2))
        (pipelineClusters cfg vectors)
      rw [List.enum_map, List.map_map, List.enum_eq_enumFrom]
      exact forall₂_enumFrom_map (topicMatches items cfg unescape) _
        (fun i c => ⟨rfl, rfl⟩) (pipelineClusters cfg vectors) 0

/-! ### Claim C3: the singleton reconciliation pass -/

/-- Modelled from the spec sentences behind C3: each singleton is compared
only against the multi-member pool (whose centroids are updated as merges
happen); a singleton that fails the relaxed threshold is retained aside and
never enters the pool of candidate hosts.  The state is the pair of the
multi-member pool and the retained singletons. -/
noncomputable def claimMergeStep (mth : ℝ) (vecs : List (List ℝ))
    (st : List Cluster × List Cluster) (c : Cluster) : List Cluster × List Cluster :=
  match firstArgmax
      (fun d => _cosine (vecs.getD (c.indices.getD 0 0) []) d.centroid) st.1 with
  | some (j, m) =>
      if mth ≤ m then
        let t := st.1.getD j ⟨[], []⟩
        (st.1.set j ⟨_norm (vadd (vscale (t.indices.length : ℝ) t.centroid)
            (vecs.getD (c.indices.getD 0 0) [])), t.indices ++ [c.indices.getD 0 0]⟩,
         st.2)
      else (st.1, st.2 ++ [c])
  | none => (st.1, st.2 ++ [c])

/-- Modelled from the spec sentences behind C3: the whole reconciliation
pass as the claim describes it - hosts are only ever the multi-member
clusters, retained singletons are kept outside the pool. -/
noncomputable def claimMergePass (mth : ℝ) (vecs : List (List ℝ))
    (clusters : List Cluster) : List Cluster :=
  let singles := clusters.filter (fun c => c.indices.length == 1)
  let nonS := clusters.filter (fun c => decide (1 < c.indices.length))
  if singles.isEmpty || nonS.isEmpty then clusters
  else
    let r := singles.foldl (claimMergeStep mth vecs) (nonS, [])
    r.1 ++ r.2

/-- C3 (counterexample): clusters `{0,1}` (centroid `[1,0,0]`),
singleton `{2}` (`[0,1,0]`) and singleton `{3}` (`[0,20/29,21/29]`) at
relaxed threshold `0.65`.  The code first retains singleton `{2}` - which
appends it to the host pool - and then merges `{3}` into it (similarity
`20/29 ≈ 0.69`), so a retained singleton does serve as a merge host; under
the claim's description both singletons would be retained. -/
theorem C3_counterexample :
    ((mergePass 0.65 [[1, 0, 0], [1, 0, 0], [0, 1, 0], [0, 20/29, 21/29]]
        [⟨[1, 0, 0], [0, 1]⟩, ⟨[0, 1, 0], [2]⟩, ⟨[0, 20/29, 21/29], [3]⟩]).map
      (fun c => c.indices) = [[0, 1], [2, 3]]) ∧
    ((claimMergePass 0.65 [[1, 0, 0], [1, 0, 0], [0, 1, 0], [0, 20/29, 21/29]]
        [⟨[1, 0, 0], [0, 1]⟩, ⟨[0, 1, 0], [2]⟩, ⟨[0, 20/29, 21/29], [3]⟩]).map
      (fun c => c.indices) = [[0, 1], [2], [3]]) := by
  have h1 : mergeStep 0.65 [[(1 : ℝ), 0, 0], [1, 0, 0], [0, 1, 0], [0, 20/29, 21/29]]
      [⟨[1, 0, 0], [0, 1]⟩] ⟨[0, 1, 0], [2]⟩ =
      [⟨[1, 0, 0], [0, 1]⟩, ⟨[0, 1, 0], [2]⟩] := by
    norm_num [mergeStep, bestScan, _cosine, dot, List.enum, List.enumFrom]
  have h2 : (mergeStep 0.65 [[(1 : ℝ), 0, 0], [1, 0, 0], [0, 1, 0], [0, 20/29, 21/29]]
      [⟨[1, 0, 0], [0, 1]⟩, ⟨[0, 1, 0], [2]⟩] ⟨[0, 20/29, 21/29], [3]⟩).map
      (fun c => c.indices) = [[0, 1], [2, 3]] := by
    norm_num [mergeStep, bestScan, _cosine, dot, List.enum, List.enumFrom]
  constructor
  · have hcode : mergePass 0.65 [[(1 : ℝ), 0, 0], [1, 0, 0], [0, 1, 0], [0, 20/29, 21/29]]
        [⟨[1, 0, 0], [0, 1]⟩, ⟨[0, 1, 0], [2]⟩, ⟨[0, 20/29, 21/29], [3]⟩] =
        List.foldl
          (mergeStep 0.65 [[(1 : ℝ), 0, 0], [1, 0, 0], [0, 1, 0], [0, 20/29, 21/29]])
          [⟨[1, 0, 0], [0, 1]⟩]
          [⟨[0, 1, 0], [2]⟩, ⟨[0, 20/29, 21/29], [3]⟩] := rfl
    rw [hcode, List.foldl_cons, h1, List.foldl_cons, List.foldl_nil]
    exact h2
  · have h3 : claimMergeStep 0.65 [[(1 : ℝ), 0, 0], [1, 0, 0], [0, 1, 0], [0, 20/29, 21/29]]
        ([⟨[1, 0, 0], [0, 1]⟩], []) ⟨[0, 1, 0], [2]⟩ =
        ([⟨[1, 0, 0], [0, 1]⟩], [⟨[0, 1, 0], [2]⟩]) := by
      norm_num [claimMergeStep, firstArgmax, _cosine, dot]
    have h4 : claimMergeStep 0.65 [[(1 : ℝ), 0, 0], [1, 0, 0], [0, 1, 0], [0, 20/29, 21/29]]
        ([⟨[1, 0, 0], [0, 1]⟩], [⟨[0, 1, 0], [2]⟩]) ⟨[0, 20/29, 21/29], [3]⟩ =
        ([⟨[1, 0, 0], [0, 1]⟩], [⟨[0, 1, 0], [2]⟩, ⟨[0, 20/29, 21/29], [3]⟩]) := by
      norm_num [claimMergeStep, firstArgmax, _cosine, dot]
    have hclaim : claimMergePass 0.65
        [[(1 : ℝ), 0, 0], [1, 0, 0], [0, 1, 0], [0, 20/29, 21/29]]
        [⟨[1, 0, 0], [0, 1]⟩, ⟨[0, 1, 0], [2]⟩, ⟨[0, 20/29, 21/29], [3]⟩] =
        (List.foldl
          (claimMergeStep 0.65 [[(1 : ℝ), 0, 0], [1, 0, 0], [0, 1, 0], [0, 20/29, 21/29]])
          ([⟨[1, 0, 0], [0, 1]⟩], [])
          [⟨[0, 1, 0], [2]⟩, ⟨[0, 20/29, 21/29], [3]⟩]).1 ++
        (List.foldl
          (claimMergeStep 0.65 [[(1 : ℝ), 0, 0], [1, 0, 0], [0, 1, 0], [0, 20/29, 21/29]])
          ([⟨[1, 0, 0], [0, 1]⟩], [])
          [⟨[0, 1, 0], [2]⟩, ⟨[0, 20/29, 21/29], [3]⟩]).2 := rfl
    rw [hclaim, List.foldl_cons, h3, List.foldl_cons, h4, List.foldl_nil]
    rfl

/-- Modelled from the claim as amended: identical to the code's merge step
read through the guarded first-argmax: the singleton is compared against
the centroids of the current host list (which includes singletons retained
earlier in the pass), and on failure it is appended to that host list. -/
noncomputable def amendedMergeStep (mth : ℝ) (vecs : List (List ℝ))
    (hosts : List Cluster) (c : Cluster) : List Cluster :=
  match firstArgmax
      (fun d => _cosine (vecs.getD (c.indices.getD 0 0) []) d.centroid) hosts with
  | some (j, m) =>
      if -1 < m ∧ mth ≤ m then
        let t := hosts.getD j ⟨[], []⟩
        hosts.set j ⟨_norm (vadd (vscale (t.indices.length : ℝ) t.centroid)
            (vecs.getD (c.indices.getD 0 0) [])), t.indices ++ [c.indices.getD 0 0]⟩
      else hosts ++ [c]
  | none => hosts ++ [c]

/-- C3 (amended): each singleton is matched by guarded first-argmax against
the centroids of the current host list, which starts as the multi-member
clusters and grows by every retained singleton, so a retained singleton can
host a later singleton; the pass is the fold of this step and is skipped
when either side of the partition is empty. -/
theorem C3_singleton_pass_hosts_grow (mth : ℝ) (vecs : List (List ℝ)) :
    (∀ (hosts : List Cluster) (c : Cluster),
      mergeStep mth vecs hosts c = amendedMergeStep mth vecs hosts c) ∧
    (∀ clusters : List Cluster,
      mergePass mth vecs clusters =
        if (clusters.filter (fun c => c.indices.length == 1)).isEmpty ||
            (clusters.filter (fun c => decide (1 < c.indices.length))).isEmpty
        then clusters
        else (clusters.filter (fun c => c.indices.length == 1)).foldl
          (amendedMergeStep mth vecs)
          (clusters.filter (fun c => decide (1 < c.indices.length)))) := by
  have hstep : ∀ (hosts : List Cluster) (c : Cluster),
      mergeStep mth vecs hosts c = amendedMergeStep mth vecs hosts c := by
    intro hosts c
    rcases hfa : firstArgmax
        (fun d => _cosine (vecs.getD (c.indices.getD 0 0) []) d.centroid) hosts
      with _ | ⟨j, m⟩ <;>
      simp only [mergeStep, amendedMergeStep, bestScan_enum, hfa, scanResult]
    · simp
    · by_cases hm1 : (-1 : ℝ) < m
      · rw [if_pos hm1]
        by_cases hth : mth ≤ m
        · rw [if_pos ⟨Int.natCast_nonneg _, hth⟩, if_pos ⟨hm1, hth⟩]
          simp only [Int.toNat_natCast, Nat.zero_add]
          rw [_norm_vdiv (by positivity)]
        · rw [if_neg (show ¬((0 : ℤ) ≤ ((((0 + j : ℕ) : ℤ), m) : ℤ × ℝ).1 ∧
              mth ≤ ((((0 + j : ℕ) : ℤ), m) : ℤ × ℝ).2) from fun hc => hth hc.2),
            if_neg (show ¬((-1 : ℝ) < m ∧ mth ≤ m) from fun hc => hth hc.2)]
      · rw [if_neg hm1]
        rw [if_neg (fun hc => absurd hc.1 (by norm_num)),
          if_neg (fun hc => hm1 hc.1)]
  refine ⟨hstep, ?_⟩
  intro clusters
  rw [mergePass]
  have hfun : mergeStep mth vecs = amendedMergeStep mth vecs :=
    funext (fun hosts => funext (fun c => hstep hosts c))
  rw [hfun]

/-! ### Claim C8: totality, empty batch, identical batch -/

theorem vadd_vscale_self (a : ℝ) (u : List ℝ) :
    vadd (vscale a u) u = vscale (a + 1) u := by
  induction u with
  | nil => simp [vadd, vscale]
  | cons c cs ih =>
    show (c * a + c) :: vadd (vscale a cs) cs = (c * (a + 1)) :: vscale (a + 1) cs
    rw [ih]
    congr 1
    ring

theorem vdiv_vscale_self {a : ℝ} (ha : a ≠ 0) (u : List ℝ) :
    vdiv (vscale a u) a = u := by
  induction u with
  | nil => simp [vdiv, vscale]
  | cons c cs ih =>
    show (c * a / a) :: vdiv (vscale a cs) a = c :: cs
    rw [ih, mul_div_assoc, div_self ha, mul_one]

theorem _norm_of_unit {u : List ℝ} (hu : norm2 u = 1) : _norm u = u := by
  rw [_norm, if_neg (by rw [hu, Real.sqrt_one]; exact one_ne_zero), hu, Real.sqrt_one]
  show u.map (fun c => c / 1) = u
  simp

/-- The running-mean update applied to a unit centroid that absorbs an
identical unit vector leaves the centroid unchanged. -/
theorem centroid_fixed {u : List ℝ} (hu : norm2 u = 1) (n : ℕ) :
    _norm (vdiv (vadd (vscale (n : ℝ) u) u) ((n : ℝ) + 1)) = u := by
  rw [vadd_vscale_self, vdiv_vscale_self (by positivity) u, _norm_of_unit hu]

/-- One greedy step on the single cluster `⟨u, ind⟩` fed the identical unit
vector `u` merges (similarity 1) and keeps the centroid at `u`. -/
theorem greedyStep_identical {th : ℝ} {u : List ℝ} (hu : norm2 u = 1) (hth : th ≤ 1)
    (ind : List ℕ) (k0 : ℕ) :
    greedyStep th [⟨u, ind⟩] (k0, u) = [⟨u, ind ++ [k0]⟩] := by
  have hcos : _cosine u u = 1 := hu
  have hscan : bestScan u (-1, -1) ([(0, (⟨u, ind⟩ : Cluster))]) = (0, 1) := by
    simp only [bestScan, hcos]
    rw [if_pos (by norm_num)]
    simp
  simp only [greedyStep,
    show List.enum [(⟨u, ind⟩ : Cluster)] = [(0, (⟨u, ind⟩ : Cluster))] from rfl, hscan]
  rw [if_pos ⟨by norm_num, hth⟩]
  simp only [Int.toNat_zero, List.getD_cons_zero, List.set_cons_zero]
  rw [centroid_fixed hu]

theorem greedy_identical_aux {th : ℝ} {u : List ℝ} (hu : norm2 u = 1) (hth : th ≤ 1) :
    ∀ (m k0 : ℕ) (ind : List ℕ),
      List.foldl (greedyStep th) [⟨u, ind⟩] ((List.replicate m u).enumFrom k0) =
        [⟨u, ind ++ List.range' k0 m⟩] := by
  intro m
  induction m with
  | zero => intro k0 ind; simp [List.enumFrom]
  | succ m ih =>
    intro k0 ind
    rw [List.replicate_succ, List.enumFrom_cons, List.foldl_cons,
      greedyStep_identical hu hth ind k0, ih (k0 + 1) (ind ++ [k0]),
      List.append_assoc, List.range'_succ]
    rfl

/-- C8 (amended): the clusterer is total; the empty sequence yields no
clusters, and every non-empty batch of identical NONZERO input vectors
(normalized on entry, as `main` does) collapses into exactly one cluster at
every threshold at most 1.0.  (The zero vector is excluded: its normalized
form has self-similarity 0, not 1.) -/
theorem C8_totality_identical_collapse (th : ℝ) (v : List ℝ) (k : ℕ)
    (hv : norm2 v ≠ 0) (hk : 0 < k) (hth : th ≤ 1) :
    _cluster_with_threshold th ([] : List (List ℝ)) = [] ∧
    (_cluster_with_threshold th ((List.replicate k v).map _norm)).length = 1 := by
  constructor
  · rfl
  · have hu : norm2 (_norm v) = 1 := norm2_norm_eq_one hv
    rw [List.map_replicate]
    rcases k with _ | m
    · exact absurd hk (by norm_num)
    · rw [_cluster_with_threshold, List.replicate_succ, List.enum_eq_enumFrom,
        List.enumFrom_cons, List.foldl_cons]
      have hfirst : greedyStep th [] (0, _norm v) = [⟨_norm v, [0]⟩] := by
        simp only [greedyStep, List.enum_nil, bestScan]
        rw [if_neg (fun hc => absurd hc.1 (by norm_num))]
        rfl
      rw [hfirst, greedy_identical_aux hu hth m 1 [0]]
      rfl

/-- Witness: three copies of the 1-dimensional vector `[1]` collapse into
one cluster at threshold 1. -/
theorem C8_totality_identical_collapse_witness :
    _cluster_with_threshold 1 ([] : List (List ℝ)) = [] ∧
    (_cluster_with_threshold 1 ((List.replicate 3 [(1 : ℝ)]).map _norm)).length = 1 :=
  C8_totality_identical_collapse 1 [1] 3 (by simp [norm2, dot]) (by norm_num) (le_refl 1)

/-- C8 (counterexample): a batch of two identical ZERO input vectors at
threshold 0.5 ≤ 1.0 stays two singleton clusters - the normalized zero
vector has self-similarity 0 < 0.5 - refuting the collapse claim for
arbitrary identical vectors. -/
theorem C8_counterexample :
    (_cluster_with_threshold 0.5 ((List.replicate 2 [(0 : ℝ), 0]).map _norm)).length = 2 ∧
    ((0.5 : ℝ) ≤ 1) := by
  have hn : _norm [(0 : ℝ), 0] = [0, 0] := by
    rw [_norm, if_pos]
    rw [show norm2 [(0 : ℝ), 0] = 0 by norm_num [norm2, dot], Real.sqrt_zero]
  have hv : (List.replicate 2 [(0 : ℝ), 0]).map _norm = [[0, 0], [0, 0]] := by
    rw [List.map_replicate, hn]
    rfl
  constructor
  · rw [hv]
    have h1 : greedyStep 0.5 [] ((0 : ℕ), [(0 : ℝ), 0]) = [⟨[0, 0], [0]⟩] := by
      norm_num [greedyStep, bestScan, List.enum]
    have h2 : (greedyStep 0.5 [⟨[(0 : ℝ), 0], [0]⟩] ((1 : ℕ), [(0 : ℝ), 0])).length = 2 := by
      norm_num [greedyStep, bestScan, List.enum, List.enumFrom, _cosine, dot]
    rw [show _cluster_with_threshold 0.5 [[(0 : ℝ), 0], [0, 0]] =
        List.foldl (greedyStep 0.5) []
          [((0 : ℕ), [(0 : ℝ), 0]), ((1 : ℕ), [(0 : ℝ), 0])] from rfl,
      List.foldl_cons, h1, List.foldl_cons, List.foldl_nil]
    exact h2
  · norm_num

/-! ### Claim C6: threshold monotonicity of the cluster count -/

/-- The first greedy step always starts a fresh singleton cluster. -/
theorem greedyStep_nil (th : ℝ) (iv : ℕ × List ℝ) :
    greedyStep th [] iv = [⟨iv.2, [iv.1]⟩] := by
  simp only [greedyStep, List.enum_nil, bestScan]
  rw [if_neg (fun hc => absurd hc.1 (by norm_num))]
  rfl

/-- A four-vector unit batch on which the greedy cluster count is NOT
monotone in the threshold: two (3,4,5)-style unit vectors that merge only
at a low threshold (dragging the centroid to `[1,0]`), a third vector close
to the first but far from `[1,0]`, and a fourth vector that merges at the
high threshold but is orphaned at the low one. -/
noncomputable def nonmonotoneBatch : List (List ℝ) :=
  [[3/5, 4/5], [3/5, -4/5], [-33/65, 56/65], [-3/5, -4/5]]

theorem sqrt_nine_twentyfifths : Real.sqrt (9/25) = 3/5 := by
  rw [show (9/25 : ℝ) = (3/5)^2 by norm_num]
  exact Real.sqrt_sq (by norm_num)

theorem sqrt_nine : Real.sqrt 9 = 3 := by
  rw [show (9 : ℝ) = 3^2 by norm_num]
  exact Real.sqrt_sq (by norm_num)

theorem sqrt_twentyfive : Real.sqrt 25 = 5 := by
  rw [show (25 : ℝ) = 5^2 by norm_num]
  exact Real.sqrt_sq (by norm_num)

/-- Low-threshold trace: at τ = -0.3 the first two vectors merge (similarity
-7/25 ≥ -0.3) and the centroid becomes `[1,0]`; the last two vectors then
fail against both existing centroids, leaving three clusters. -/
theorem nonmonotone_low_count :
    (_cluster_with_threshold (-0.3) nonmonotoneBatch).length = 3 := by
  have h2 : greedyStep (-0.3) [⟨[(3 : ℝ)/5, 4/5], [0]⟩] ((1 : ℕ), [(3 : ℝ)/5, -4/5]) =
      [⟨[1, 0], [0, 1]⟩] := by
    norm_num [greedyStep, bestScan, List.enum, List.enumFrom, _cosine, dot,
      vadd, vscale, vdiv, _norm, norm2, sqrt_nine_twentyfifths, sqrt_nine,
      sqrt_twentyfive]
  have h3 : greedyStep (-0.3) [⟨[(1 : ℝ), 0], [0, 1]⟩] ((2 : ℕ), [(-33 : ℝ)/65, 56/65]) =
      [⟨[(1 : ℝ), 0], [0, 1]⟩, ⟨[(-33 : ℝ)/65, 56/65], [2]⟩] := by
    norm_num [greedyStep, bestScan, List.enum, List.enumFrom, _cosine, dot]
  have h4 : (greedyStep (-0.3) [⟨[(1 : ℝ), 0], [0, 1]⟩, ⟨[(-33 : ℝ)/65, 56/65], [2]⟩]
      ((3 : ℕ), [(-3 : ℝ)/5, -4/5])).length = 3 := by
    norm_num [greedyStep, bestScan, List.enum, List.enumFrom, _cosine, dot]
  rw [show _cluster_with_threshold (-0.3) nonmonotoneBatch =
      List.foldl (greedyStep (-0.3)) []
        [((0 : ℕ), [(3 : ℝ)/5, 4/5]), ((1 : ℕ), [(3 : ℝ)/5, -4/5]),
         ((2 : ℕ), [(-33 : ℝ)/65, 56/65]), ((3 : ℕ), [(-3 : ℝ)/5, -4/5])] from rfl,
    List.foldl_cons, greedyStep_nil, List.foldl_cons, h2, List.foldl_cons, h3,
    List.foldl_cons, List.foldl_nil]
  exact h4

theorem sqrt_nine_thirteenths_pos : 0 < Real.sqrt (9/13) :=
  Real.sqrt_pos.mpr (by norm_num)

theorem sqrt_nine_thirteenths_sq : Real.sqrt (9/13) ^ 2 = 9/13 :=
  Real.sq_sqrt (by norm_num)

/-- High-threshold trace: at τ = 0.25 the second vector stays apart
(similarity -7/25 < 0.25), the third merges into the first cluster
(similarity 5/13), and the fourth merges into the second cluster
(similarity 7/25 beats its similarity to the drifted centroid), leaving two
clusters. -/
theorem nonmonotone_high_count :
    (_cluster_with_threshold 0.25 nonmonotoneBatch).length = 2 := by
  have h2 : greedyStep 0.25 [⟨[(3 : ℝ)/5, 4/5], [0]⟩] ((1 : ℕ), [(3 : ℝ)/5, -4/5]) =
      [⟨[(3 : ℝ)/5, 4/5], [0]⟩, ⟨[(3 : ℝ)/5, -4/5], [1]⟩] := by
    norm_num [greedyStep, bestScan, List.enum, List.enumFrom, _cosine, dot]
  have h3 : greedyStep 0.25 [⟨[(3 : ℝ)/5, 4/5], [0]⟩, ⟨[(3 : ℝ)/5, -4/5], [1]⟩]
      ((2 : ℕ), [(-33 : ℝ)/65, 56/65]) =
      [⟨_norm [(3 : ℝ)/65, 54/65], [0, 2]⟩, ⟨[(3 : ℝ)/5, -4/5], [1]⟩] := by
    norm_num [greedyStep, bestScan, List.enum, List.enumFrom, _cosine, dot,
      vadd, vscale, vdiv]
  have hm : _norm [(3 : ℝ)/65, 54/65] =
      [(3 : ℝ)/65 / Real.sqrt (9/13), (54 : ℝ)/65 / Real.sqrt (9/13)] := by
    rw [_norm, show norm2 [(3 : ℝ)/65, 54/65] = 9/13 from by norm_num [norm2, dot]]
    rw [if_neg (ne_of_gt sqrt_nine_thirteenths_pos)]
    rfl
  have hcosm : _cosine [(-3 : ℝ)/5, -4/5] (_norm [(3 : ℝ)/65, 54/65]) =
      (-9/13) / Real.sqrt (9/13) := by
    rw [hm]
    show (-3 : ℝ)/5 * ((3 : ℝ)/65 / Real.sqrt (9/13)) +
      ((-4 : ℝ)/5 * ((54 : ℝ)/65 / Real.sqrt (9/13)) + 0) = (-9/13) / Real.sqrt (9/13)
    field_simp
    ring
  have hgt : (-1 : ℝ) < (-9/13) / Real.sqrt (9/13) := by
    have htp := sqrt_nine_thirteenths_pos
    have h913 : (9/13 : ℝ) < Real.sqrt (9/13) := by
      nlinarith [sqrt_nine_thirteenths_sq, sqrt_nine_thirteenths_pos]
    have hdiv : (9/13 : ℝ) / Real.sqrt (9/13) < 1 := (div_lt_one htp).mpr h913
    rw [show ((-9/13 : ℝ)) / Real.sqrt (9/13) =
      -((9/13 : ℝ) / Real.sqrt (9/13)) by ring]
    linarith
  have hlt : (-9/13 : ℝ) / Real.sqrt (9/13) < 7/25 := by
    have : (-9/13 : ℝ) / Real.sqrt (9/13) < 0 :=
      div_neg_of_neg_of_pos (by norm_num) sqrt_nine_thirteenths_pos
    linarith
  have hcosw : _cosine [(-3 : ℝ)/5, -4/5] [(3 : ℝ)/5, -4/5] = 7/25 := by
    norm_num [_cosine, dot]
  have h4 : (greedyStep 0.25 [⟨_norm [(3 : ℝ)/65, 54/65], [0, 2]⟩,
      ⟨[(3 : ℝ)/5, -4/5], [1]⟩] ((3 : ℕ), [(-3 : ℝ)/5, -4/5])).length = 2 := by
    have hscan : bestScan [(-3 : ℝ)/5, -4/5] (-1, -1)
        (List.enum [(⟨_norm [(3 : ℝ)/65, 54/65], [0, 2]⟩ : Cluster),
          ⟨[(3 : ℝ)/5, -4/5], [1]⟩]) = (1, 7/25) := by
      show bestScan [(-3 : ℝ)/5, -4/5] (-1, -1)
        [((0 : ℕ), (⟨_norm [(3 : ℝ)/65, 54/65], [0, 2]⟩ : Cluster)),
         ((1 : ℕ), ⟨[(3 : ℝ)/5, -4/5], [1]⟩)] = (1, 7/25)
      simp only [bestScan, hcosm, hcosw]
      rw [if_pos (show ((-1 : ℤ), (-1 : ℝ)).2 < (-9/13) / Real.sqrt (9/13) from hgt),
        if_pos (show (((0 : ℕ) : ℤ), (-9/13 : ℝ) / Real.sqrt (9/13)).2 < 7/25 from hlt)]
      simp
    simp only [greedyStep, hscan]
    rw [if_pos ⟨by norm_num, by norm_num⟩]
    simp
  rw [show _cluster_with_threshold 0.25 nonmonotoneBatch =
      List.foldl (greedyStep 0.25) []
        [((0 : ℕ), [(3 : ℝ)/5, 4/5]), ((1 : ℕ), [(3 : ℝ)/5, -4/5]),
         ((2 : ℕ), [(-33 : ℝ)/65, 56/65]), ((3 : ℕ), [(-3 : ℝ)/5, -4/5])] from rfl,
    List.foldl_cons, greedyStep_nil, List.foldl_cons, h2, List.foldl_cons, h3,
    List.foldl_cons, List.foldl_nil]
  exact h4

/-- C6 (counterexample): on `nonmonotoneBatch`, clustering at the LOWER
threshold -0.3 produces three clusters while the HIGHER threshold 0.25
produces two: the greedy cluster count is not monotone in the threshold. -/
theorem C6_counterexample :
    ((-0.3 : ℝ) < 0.25) ∧
    (_cluster_with_threshold 0.25 nonmonotoneBatch).length = 2 ∧
    (_cluster_with_threshold (-0.3) nonmonotoneBatch).length = 3 :=
  ⟨by norm_num, nonmonotone_high_count, nonmonotone_low_count⟩

/-- C6 (amended): threshold monotonicity of the greedy cluster count does
not hold in general - there is a batch and a pair of thresholds τ1 < τ2 at
which the lower threshold yields strictly MORE clusters, because early
merges at the low threshold drag a centroid away from later vectors. -/
theorem C6_count_not_monotone :
    ∃ (vecs : List (List ℝ)) (t1 t2 : ℝ), t1 < t2 ∧
      (_cluster_with_threshold t2 vecs).length <
        (_cluster_with_threshold t1 vecs).length := by
  refine ⟨nonmonotoneBatch, -0.3, 0.25, by norm_num, ?_⟩
  rw [nonmonotone_high_count, nonmonotone_low_count]
  norm_num

/-! ### Claim C9: centroids stay unit-norm (or zero on all-zero input) -/

/-- The all-zero predicate on a vector. -/
def IsZero (v : List ℝ) : Prop := ∀ x ∈ v, x = 0

theorem length_vscale (a : ℝ) (v : List ℝ) : (vscale a v).length = v.length := by
  simp [vscale]

theorem length_vdiv (v : List ℝ) (a : ℝ) : (vdiv v a).length = v.length := by
  simp [vdiv]

theorem length_vadd (x y : List ℝ) (h : x.length = y.length) :
    (vadd x y).length = x.length := by
  simp [vadd, h]

theorem length_norm (v : List ℝ) : (_norm v).length = v.length := by
  rw [_norm]
  split
  · rfl
  · simp [vdiv]

theorem dot_comm (x : List ℝ) : ∀ y, dot x y = dot y x := by
  induction x with
  | nil => intro y; cases y <;> simp [dot]
  | cons a as ih =>
    intro y
    cases y with
    | nil => simp [dot]
    | cons b bs =>
      show a * b + dot as bs = b * a + dot bs as
      rw [ih bs, mul_comm]

theorem dot_vscale (a : ℝ) (x : List ℝ) : ∀ z, dot (vscale a x) z = a * dot x z := by
  induction x with
  | nil => intro z; cases z <;> simp [dot, vscale]
  | cons c cs ih =>
    intro z
    cases z with
    | nil => simp [dot, vscale]
    | cons b bs =>
      show c * a * b + dot (vscale a cs) bs = a * (c * b + dot cs bs)
      rw [ih bs]
      ring

theorem dot_vadd (x : List ℝ) : ∀ (y z : List ℝ), x.length = y.length →
    dot (vadd x y) z = dot x z + dot y z := by
  induction x with
  | nil =>
    intro y z h
    have hy : y = [] := List.length_eq_zero.mp h.symm
    subst hy
    cases z <;> simp [dot, vadd]
  | cons a as ih =>
    intro y z h
    cases y with
    | nil => simp at h
    | cons b bs =>
      cases z with
      | nil => simp [dot, vadd]
      | cons c cs =>
        show (a + b) * c + dot (vadd as bs) cs = (a * c + dot as cs) + (b * c + dot bs cs)
        rw [ih bs cs (by simpa using h)]
        ring

theorem dot_isZero_left (x : List ℝ) (h : IsZero x) : ∀ z, dot x z = 0 := by
  induction x with
  | nil => intro z; cases z <;> simp [dot]
  | cons a as ih =>
    intro z
    cases z with
    | nil => simp [dot]
    | cons b bs =>
      show a * b + dot as bs = 0
      rw [h a (List.mem_cons_self a as), zero_mul, zero_add]
      exact ih (fun x hx => h x (List.mem_cons_of_mem a hx)) bs

theorem norm2_of_isZero {v : List ℝ} (h : IsZero v) : norm2 v = 0 :=
  (norm2_eq_zero_iff v).mpr h

theorem isZero_vdiv {v : List ℝ} (a : ℝ) (h : IsZero v) : IsZero (vdiv v a) := by
  intro x hx
  rcases List.mem_map.mp hx with ⟨c, hc, rfl⟩
  rw [h c hc, zero_div]

/-- Expansion of the squared norm of the running-mean numerator. -/
theorem norm2_update (cvec v : List ℝ) (hlen : cvec.length = v.length) (n : ℝ) :
    norm2 (vadd (vscale n cvec) v) =
      n^2 * norm2 cvec + 2 * n * dot cvec v + norm2 v := by
  have hAB : (vscale n cvec).length = v.length := by rw [length_vscale, hlen]
  show dot (vadd (vscale n cvec) v) (vadd (vscale n cvec) v) = _
  rw [dot_vadd (vscale n cvec) v _ hAB]
  rw [dot_comm (vscale n cvec) (vadd (vscale n cvec) v),
    dot_comm v (vadd (vscale n cvec) v)]
  rw [dot_vadd (vscale n cvec) v _ hAB, dot_vadd (vscale n cvec) v _ hAB]
  rw [dot_comm v (vscale n cvec), dot_vscale n cvec v,
    dot_vscale n cvec (vscale n cvec), dot_comm cvec (vscale n cvec),
    dot_vscale n cvec cvec]
  simp only [norm2]
  ring

/-- Core of C9: the running-mean centroid update of a unit-or-zero centroid
with a unit-or-zero vector whose similarity beat the `-1.0` sentinel is
again unit, or all-zero with both inputs all-zero. -/
theorem updated_centroid_good (cvec v : List ℝ) (d : ℕ) (hc : cvec.length = d)
    (hv : v.length = d) (n : ℕ) (hn : 1 ≤ n) (hm : -1 < dot v cvec)
    (hcu : norm2 cvec = 1 ∨ IsZero cvec) (hvu : norm2 v = 1 ∨ IsZero v) :
    norm2 (_norm (vdiv (vadd (vscale (n : ℝ) cvec) v) ((n : ℝ) + 1))) = 1 ∨
      (IsZero (_norm (vdiv (vadd (vscale (n : ℝ) cvec) v) ((n : ℝ) + 1))) ∧
        IsZero cvec ∧ IsZero v) := by
  have hlen : cvec.length = v.length := by rw [hc, hv]
  have hs := norm2_update cvec v hlen (n : ℝ)
  have hn1 : (1 : ℝ) ≤ (n : ℝ) := by exact_mod_cast hn
  have hdiv : norm2 (vdiv (vadd (vscale (n : ℝ) cvec) v) ((n : ℝ) + 1)) =
      norm2 (vadd (vscale (n : ℝ) cvec) v) / (((n : ℝ) + 1) * ((n : ℝ) + 1)) :=
    norm2_vdiv _ _
  have hne : (((n : ℝ) + 1) * ((n : ℝ) + 1)) ≠ 0 := by positivity
  rcases hcu with hcu | hcz
  · left
    have hpos : 0 < norm2 (vadd (vscale (n : ℝ) cvec) v) := by
      rcases hvu with hvu | hvz
      · rw [hs, hcu, hvu, dot_comm cvec v]
        nlinarith [sq_nonneg ((n : ℝ) - 1)]
      · rw [hs, hcu, norm2_of_isZero hvz, dot_comm cvec v, dot_isZero_left v hvz cvec]
        nlinarith
    apply norm2_norm_eq_one
    rw [hdiv]
    exact div_ne_zero (ne_of_gt hpos) hne
  · have hc0 : norm2 cvec = 0 := norm2_of_isZero hcz
    have hdc : dot cvec v = 0 := dot_isZero_left cvec hcz v
    rcases hvu with hvu | hvz
    · left
      have hpos : 0 < norm2 (vadd (vscale (n : ℝ) cvec) v) := by
        rw [hs, hc0, hdc, hvu]
        nlinarith
      apply norm2_norm_eq_one
      rw [hdiv]
      exact div_ne_zero (ne_of_gt hpos) hne
    · right
      have hszero : norm2 (vadd (vscale (n : ℝ) cvec) v) = 0 := by
        rw [hs, hc0, hdc, norm2_of_isZero hvz]
        ring
      have hz : IsZero (vdiv (vadd (vscale (n : ℝ) cvec) v) ((n : ℝ) + 1)) :=
        isZero_vdiv _ ((norm2_eq_zero_iff _).mp hszero)
      rw [_norm_of_norm2_eq_zero (norm2_of_isZero hz)]
      exact ⟨hz, hcz, hvz⟩

theorem getD_mem_of_lt {α : Type} (l : List α) (i : ℕ) (dflt : α) (h : i < l.length) :
    l.getD i dflt ∈ l := by
  have he : l.getD i dflt = l[i] := by
    rw [List.getD_eq_getElem?_getD, List.getElem?_eq_getElem h]
    rfl
  rw [he]
  exact List.getElem_mem h

theorem getD_zero_mem {α : Type} (l : List α) (dflt : α) (h : l ≠ []) :
    l.getD 0 dflt ∈ l := by
  cases l with
  | nil => exact absurd rfl h
  | cons a as =>
    rw [List.getD_cons_zero]
    exact List.mem_cons_self a as

/-- The bundled invariant of C9 on one cluster: centroid of the batch
dimension, non-empty member list of in-range indices, and a centroid that
is unit or all-zero with all-zero member vectors. -/
def GoodCl (vecs : List (List ℝ)) (d : ℕ) (c : Cluster) : Prop :=
  c.centroid.length = d ∧ c.indices ≠ [] ∧ (∀ i ∈ c.indices, i < vecs.length) ∧
  (norm2 c.centroid = 1 ∨
    (IsZero c.centroid ∧ ∀ i ∈ c.indices, IsZero (vecs.getD i [])))

/-- A fresh singleton cluster on an in-range unit-or-zero vector is good. -/
theorem newCluster_good {vecs : List (List ℝ)} {d : ℕ} {i : ℕ} {v : List ℝ}
    (hgd : vecs.getD i [] = v) (hilt : i < vecs.length)
    (hlen : v.length = d) (huz : norm2 v = 1 ∨ IsZero v) :
    GoodCl vecs d ⟨v, [i]⟩ := by
  refine ⟨hlen, by simp, ?_, ?_⟩
  · intro i' hi'
    simp at hi'
    rw [hi']
    exact hilt
  · rcases huz with h | h
    · exact Or.inl h
    · refine Or.inr ⟨h, ?_⟩
      intro i' hi'
      simp at hi'
      rw [hi', hgd]
      exact h

/-- The merged cluster built by the update branch is good. -/
theorem mergedCluster_good {vecs : List (List ℝ)} {d : ℕ} {i : ℕ} {v : List ℝ}
    (hgd : vecs.getD i [] = v) (hilt : i < vecs.length)
    (hlen : v.length = d) (huz : norm2 v = 1 ∨ IsZero v)
    (t : Cluster) (ht : GoodCl vecs d t) (hm : -1 < dot v t.centroid) :
    GoodCl vecs d
      ⟨_norm (vdiv (vadd (vscale ((t.indices.length : ℕ) : ℝ) t.centroid) v)
        (((t.indices.length : ℕ) : ℝ) + 1)), t.indices ++ [i]⟩ := by
  obtain ⟨htlen, htne, htbound, htuz⟩ := ht
  have hn : 1 ≤ t.indices.length := List.length_pos.mpr htne
  have hcore := updated_centroid_good t.centroid v d htlen hlen t.indices.length hn hm
    (htuz.imp id (fun h => h.1)) huz
  refine ⟨?_, by simp, ?_, ?_⟩
  · rw [length_norm, length_vdiv, length_vadd, length_vscale, htlen]
    rw [length_vscale, htlen, hlen]
  · intro i' hi'
    rcases List.mem_append.mp hi' with h | h
    · exact htbound i' h
    · simp at h
      rw [h]
      exact hilt
  · rcases hcore with h | ⟨hz, hcz, hvz⟩
    · exact Or.inl h
    · refine Or.inr ⟨hz, ?_⟩
      intro i' hi'
      rcases List.mem_append.mp hi' with h | h
      · rcases htuz with h1 | h2
        · rw [norm2_of_isZero hcz] at h1
          exact absurd h1 zero_ne_one
        · exact h2.2 i' h
      · simp at h
        rw [h, hgd]
        exact hvz

/-- One greedy step preserves the C9 invariant. -/
theorem greedyStep_good {vecs : List (List ℝ)} {d : ℕ}
    (hvec : ∀ v ∈ vecs, v.length = d ∧ (norm2 v = 1 ∨ IsZero v))
    (th : ℝ) (cl : List Cluster) (hcl : ∀ c ∈ cl, GoodCl vecs d c)
    (i : ℕ) (v : List ℝ) (hgd : vecs.getD i [] = v) (hilt : i < vecs.length) :
    ∀ c ∈ greedyStep th cl (i, v), GoodCl vecs d c := by
  have hvmem : v ∈ vecs := by
    rw [← hgd]
    exact getD_mem_of_lt vecs i [] hilt
  obtain ⟨hvlen, hvuz⟩ := hvec v hvmem
  have happend : ∀ c ∈ cl ++ [(⟨v, [i]⟩ : Cluster)], GoodCl vecs d c := by
    intro c hc
    rcases List.mem_append.mp hc with h | h
    · exact hcl c h
    · simp at h
      rw [h]
      exact newCluster_good hgd hilt hvlen hvuz
  intro c hc
  simp only [greedyStep, bestScan_enum] at hc
  rcases hfa : firstArgmax (fun c => _cosine v c.centroid) cl with _ | ⟨j, m⟩ <;>
    rw [hfa] at hc <;> simp only [scanResult] at hc
  · rw [if_neg (fun hcond => absurd hcond.1 (by norm_num))] at hc
    exact happend c hc
  · by_cases hm1 : (-1 : ℝ) < m
    · rw [if_pos hm1] at hc
      by_cases hth2 : th ≤ m
      · rw [if_pos ⟨Int.natCast_nonneg _, hth2⟩] at hc
        simp only [Int.toNat_natCast, Nat.zero_add] at hc
        rcases List.mem_or_eq_of_mem_set hc with hmem | heq
        · exact hcl c hmem
        · have hjlt : j < cl.length := firstArgmax_lt_length hfa
          have htmem : cl.getD j ⟨[], []⟩ ∈ cl := getD_mem_of_lt cl j ⟨[], []⟩ hjlt
          have hmdot : -1 < dot v (cl.getD j ⟨[], []⟩).centroid := by
            have := firstArgmax_getD (⟨[], []⟩ : Cluster) hfa
            rw [show _cosine v (cl.getD j ⟨[], []⟩).centroid =
              dot v (cl.getD j ⟨[], []⟩).centroid from rfl] at this
            rw [this]
            exact hm1
          rw [heq]
          exact mergedCluster_good hgd hilt hvlen hvuz _ (hcl _ htmem) hmdot
      · rw [if_neg (fun hcond => hth2 hcond.2)] at hc
        exact happend c hc
    · rw [if_neg hm1, if_neg (fun hcond => absurd hcond.1 (by norm_num))] at hc
      exact happend c hc

theorem greedy_fold_good {vecs : List (List ℝ)} {d : ℕ}
    (hvec : ∀ v ∈ vecs, v.length = d ∧ (norm2 v = 1 ∨ IsZero v)) (th : ℝ) :
    ∀ (pairs : List (ℕ × List ℝ)),
      (∀ p ∈ pairs, vecs.getD p.1 [] = p.2 ∧ p.1 < vecs.length) →
      ∀ (cl0 : List Cluster), (∀ c ∈ cl0, GoodCl vecs d c) →
      ∀ c ∈ List.foldl (greedyStep th) cl0 pairs, GoodCl vecs d c := by
  intro pairs
  induction pairs with
  | nil => intro _ cl0 h0; simpa using h0
  | cons p rest ih =>
    intro hp cl0 h0
    rcases p with ⟨i, v⟩
    rw [List.foldl_cons]
    apply ih (fun q hq => hp q (List.mem_cons_of_mem _ hq))
    exact greedyStep_good hvec th cl0 h0 i v
      (hp (i, v) (List.mem_cons_self _ _)).1 (hp (i, v) (List.mem_cons_self _ _)).2

theorem enum_pairs_cond (vecs : List (List ℝ)) :
    ∀ p ∈ vecs.enum, vecs.getD p.1 [] = p.2 ∧ p.1 < vecs.length := by
  intro p hp
  rcases p with ⟨i, v⟩
  rw [List.enum_eq_enumFrom] at hp
  obtain ⟨-, hlt, hx⟩ := List.mem_enumFrom hp
  simp only [Nat.zero_add] at hlt
  have hi : i < vecs.length := hlt
  constructor
  · rw [List.getD_eq_getElem?_getD, List.getElem?_eq_getElem hi]
    simp only [Option.getD_some]
    rw [hx]
    congr 1
  · exact hi

/-- One singleton-pass step preserves the C9 invariant. -/
theorem mergeStep_good {vecs : List (List ℝ)} {d : ℕ}
    (hvec : ∀ v ∈ vecs, v.length = d ∧ (norm2 v = 1 ∨ IsZero v))
    (mth : ℝ) (hosts : List Cluster) (hhosts : ∀ c ∈ hosts, GoodCl vecs d c)
    (c : Cluster) (hc : GoodCl vecs d c) :
    ∀ e ∈ mergeStep mth vecs hosts c, GoodCl vecs d e := by
  have hidxmem : c.indices.getD 0 0 ∈ c.indices := getD_zero_mem c.indices 0 hc.2.1
  have hidxlt : c.indices.getD 0 0 < vecs.length := hc.2.2.1 _ hidxmem
  obtain ⟨hvlen, hvuz⟩ := hvec (vecs.getD (c.indices.getD 0 0) [])
    (getD_mem_of_lt vecs _ [] hidxlt)
  have happend : ∀ e ∈ hosts ++ [c], GoodCl vecs d e := by
    intro e he
    rcases List.mem_append.mp he with h | h
    · exact hhosts e h
    · simp at h
      rw [h]
      exact hc
  intro e he
  simp only [mergeStep, bestScan_enum] at he
  rcases hfa : firstArgmax
      (fun dc => _cosine (vecs.getD (c.indices.getD 0 0) []) dc.centroid) hosts
    with _ | ⟨j, m⟩ <;> rw [hfa] at he <;> simp only [scanResult] at he
  · rw [if_neg (fun hcond => absurd hcond.1 (by norm_num))] at he
    exact happend e he
  · by_cases hm1 : (-1 : ℝ) < m
    · rw [if_pos hm1] at he
      by_cases hth2 : mth ≤ m
      · rw [if_pos ⟨Int.natCast_nonneg _, hth2⟩] at he
        simp only [Int.toNat_natCast, Nat.zero_add] at he
        rcases List.mem_or_eq_of_mem_set he with hmem | heq
        · exact hhosts e hmem
        · have hjlt : j < hosts.length := firstArgmax_lt_length hfa
          have htmem : hosts.getD j ⟨[], []⟩ ∈ hosts :=
            getD_mem_of_lt hosts j ⟨[], []⟩ hjlt
          have hmdot : -1 < dot (vecs.getD (c.indices.getD 0 0) [])
              (hosts.getD j ⟨[], []⟩).centroid := by
            have := firstArgmax_getD (⟨[], []⟩ : Cluster) hfa
            rw [show _cosine (vecs.getD (c.indices.getD 0 0) [])
              (hosts.getD j ⟨[], []⟩).centroid =
              dot (vecs.getD (c.indices.getD 0 0) [])
                (hosts.getD j ⟨[], []⟩).centroid from rfl] at this
            rw [this]
            exact hm1
          rw [heq]
          exact mergedCluster_good rfl hidxlt hvlen hvuz _ (hhosts _ htmem) hmdot
      · rw [if_neg (fun hcond => hth2 hcond.2)] at he
        exact happend e he
    · rw [if_neg hm1, if_neg (fun hcond => absurd hcond.1 (by norm_num))] at he
      exact happend e he

theorem merge_fold_good {vecs : List (List ℝ)} {d : ℕ}
    (hvec : ∀ v ∈ vecs, v.length = d ∧ (norm2 v = 1 ∨ IsZero v)) (mth : ℝ) :
    ∀ (singles : List Cluster), (∀ c ∈ singles, GoodCl vecs d c) →
      ∀ (hosts : List Cluster), (∀ c ∈ hosts, GoodCl vecs d c) →
      ∀ e ∈ List.foldl (mergeStep mth vecs) hosts singles, GoodCl vecs d e := by
  intro singles
  induction singles with
  | nil => intro _ hosts hh; simpa using hh
  | cons c rest ih =>
    intro hs hosts hh
    rw [List.foldl_cons]
    apply ih (fun q hq => hs q (List.mem_cons_of_mem _ hq))
    exact mergeStep_good hvec mth hosts hh c (hs c (List.mem_cons_self _ _))

/-- A normalized vector is a unit vector or all-zero, and zero iff the
original vector was zero. -/
theorem isZero_norm_iff (v : List ℝ) : IsZero (_norm v) ↔ IsZero v := by
  by_cases h : norm2 v = 0
  · rw [_norm_of_norm2_eq_zero h]
  · constructor
    · intro hz
      have h1 := norm2_norm_eq_one h
      rw [norm2_of_isZero hz] at h1
      exact absurd h1 zero_ne_one
    · intro hz
      exact absurd (norm2_of_isZero hz) h

theorem normalized_batch_good {vecs0 : List (List ℝ)} {d : ℕ}
    (hd : ∀ v ∈ vecs0, v.length = d) :
    ∀ v ∈ vecs0.map _norm, v.length = d ∧ (norm2 v = 1 ∨ IsZero v) := by
  intro v hv
  rcases List.mem_map.mp hv with ⟨w, hw, rfl⟩
  refine ⟨by rw [length_norm]; exact hd w hw, ?_⟩
  by_cases h : norm2 w = 0
  · right
    rw [_norm_of_norm2_eq_zero h]
    exact (norm2_eq_zero_iff w).mp h
  · exact Or.inl (norm2_norm_eq_one h)

/-- C9: over the normalized batch, at every point of the greedy pass and at
every point of the singleton reconciliation pass, every cluster centroid is
a unit vector or is all-zero with every member's (normalized) input vector
all-zero; the norm helper never divides by zero because a zero-norm vector
passes through unchanged, and normalization preserves zero-ness exactly. -/
theorem C9_centroids_unit_or_zero (vecs0 : List (List ℝ)) (d : ℕ) (th mth : ℝ)
    (hd : ∀ v ∈ vecs0, v.length = d) :
    (∀ v : List ℝ, norm2 v = 0 → _norm v = v) ∧
    (∀ v : List ℝ, IsZero (_norm v) ↔ IsZero v) ∧
    (∀ k, ∀ c ∈ List.foldl (greedyStep th) []
        (((vecs0.map _norm).enum).take k),
      norm2 c.centroid = 1 ∨
        (IsZero c.centroid ∧ ∀ i ∈ c.indices, IsZero ((vecs0.map _norm).getD i []))) ∧
    (∀ k, ∀ c ∈ List.foldl (mergeStep mth (vecs0.map _norm))
        ((_cluster_with_threshold th (vecs0.map _norm)).filter
          (fun c => decide (1 < c.indices.length)))
        (((_cluster_with_threshold th (vecs0.map _norm)).filter
          (fun c => c.indices.length == 1)).take k),
      norm2 c.centroid = 1 ∨
        (IsZero c.centroid ∧ ∀ i ∈ c.indices, IsZero ((vecs0.map _norm).getD i []))) := by
  have hvec := normalized_batch_good hd
  have hgreedy : ∀ c ∈ _cluster_with_threshold th (vecs0.map _norm),
      GoodCl (vecs0.map _norm) d c := by
    apply greedy_fold_good hvec th (vecs0.map _norm).enum
      (enum_pairs_cond (vecs0.map _norm)) []
    intro c hc
    simp at hc
  refine ⟨fun v h => _norm_of_norm2_eq_zero h, isZero_norm_iff, ?_, ?_⟩
  · intro k c hc
    have := greedy_fold_good hvec th (((vecs0.map _norm).enum).take k)
      (fun p hp => enum_pairs_cond (vecs0.map _norm) p (List.take_subset k _ hp))
      [] (fun c hc => by simp at hc) c hc
    exact this.2.2.2
  · intro k c hc
    have := merge_fold_good hvec mth
      (((_cluster_with_threshold th (vecs0.map _norm)).filter
        (fun c => c.indices.length == 1)).take k)
      (fun e he => hgreedy e (List.mem_filter.mp (List.take_subset k _ he)).1)
      ((_cluster_with_threshold th (vecs0.map _norm)).filter
        (fun c => decide (1 < c.indices.length)))
      (fun e he => hgreedy e (List.mem_filter.mp he).1) c hc
    exact this.2.2.2

/-- Witness: the C9 invariant instantiated on the two-dimensional batch
`[[1,0],[0,1]]` at thresholds 0.5 and 0.45; the norm-guard conjunct is
extracted. -/
theorem C9_centroids_unit_or_zero_witness :
    _norm ([0, 0] : List ℝ) = [0, 0] :=
  (C9_centroids_unit_or_zero [[1, 0], [0, 1]] 2 0.5 0.45
    (by
      intro v hv
      rcases List.mem_cons.mp hv with rfl | hv2
      · rfl
      · rcases List.mem_cons.mp hv2 with rfl | hv3
        · rfl
        · simp at hv3)).1
    [0, 0] (by norm_num [norm2, dot])

end CDI
